import Mathlib

/-!
Verification of the canonical-encoding engine of src/core/canonical.ts:
the functions canonicalize, sha256Hex, id32, deepFreeze and deepClone.

Embedding notes.
- JS values reaching the encoder are modelled by the inductive type Value.
  Mapping values are entry lists in insertion order; JS objects cannot hold
  duplicate keys, which the well-formedness predicate records where needed.
- JS numbers are IEEE doubles.  The embedding models the exact integral
  doubles (the safe-integer range, where JSON.stringify prints plain
  decimal) together with the three non-finite values NaN, +Infinity and
  -Infinity, which JSON.stringify prints as null.  Fractional doubles and
  their shortest-round-trip decimal formatting are floating-point behaviour
  outside this embedding.
- The call Object.keys(value).sort() sorts keys by the default JS string
  comparison, which is lexicographic on UTF-16 code units; u16 and unitsLE
  below model that order exactly.
-/

/-- Lowercase hexadecimal digit character, as emitted by the unicode escapes
of JSON.stringify and by the hex digest rendering of node. -/
def hexDigitChar (n : Nat) : Char :=
  if n < 10 then Char.ofNat (48 + n) else Char.ofNat (87 + n)

/-- Decimal digit character. -/
def decDigitChar (n : Nat) : Char := Char.ofNat (48 + n)

/-- Big-endian decimal digits of a natural number, written with explicit
fuel so that the definition is structurally recursive; fuel n + 1 always
suffices (lemma natCharsAux_eq). -/
def natCharsAux : Nat → Nat → List Char
  | 0, _ => []
  | fuel + 1, n =>
    if n < 10 then [decDigitChar n]
    else natCharsAux fuel (n / 10) ++ [decDigitChar (n % 10)]

/-- Decimal digit string of a natural number, as JSON.stringify prints a
non-negative integral double. -/
def natChars (n : Nat) : List Char := natCharsAux (n + 1) n

theorem natCharsAux_eq (n : Nat) : ∀ fuel, n < fuel → natCharsAux fuel n = natChars n := by
  induction n using Nat.strong_induction_on with
  | _ n ih =>
    intro fuel h
    match fuel, h with
    | fuel + 1, h =>
      show natCharsAux (fuel + 1) n = natCharsAux (n + 1) n
      by_cases h10 : n < 10
      · simp [natCharsAux, h10]
      · have hd : n / 10 < n := Nat.div_lt_self (by omega) (by omega)
        simp only [natCharsAux, if_neg h10]
        rw [ih (n / 10) hd fuel (by omega), ih (n / 10) hd n (by omega)]

theorem natChars_eq (n : Nat) :
    natChars n = if n < 10 then [decDigitChar n] else natChars (n / 10) ++ [decDigitChar (n % 10)] := by
  show natCharsAux (n + 1) n = _
  by_cases h : n < 10
  · simp [natCharsAux, h]
  · have hd : n / 10 < n := Nat.div_lt_self (by omega) (by omega)
    simp only [natCharsAux, if_neg h]
    rw [natCharsAux_eq (n / 10) n hd]

/-- Decimal representation of an integer, as JSON.stringify prints an
integral double.  JS prints the double -0 as 0, matching Int, which has a
single zero. -/
def intChars : Int → List Char
  | .ofNat n => natChars n
  | .negSucc m => '-' :: natChars (m + 1)

/-- Per-character escaping performed by JSON.stringify on string values:
quote and backslash get two-character escapes, the five named control
escapes are b t n f r, every other control character below 0x20 gets a
four-digit lowercase hex unicode escape, and every remaining character is
emitted verbatim. -/
def escapeChar (c : Char) : List Char :=
  if c = '"' then ['\\', '"']
  else if c = '\\' then ['\\', '\\']
  else if c = '\x08' then ['\\', 'b']
  else if c = '\t' then ['\\', 't']
  else if c = '\n' then ['\\', 'n']
  else if c = '\x0c' then ['\\', 'f']
  else if c = '\r' then ['\\', 'r']
  else if c.toNat < 0x20 then
    '\\' :: 'u' :: '0' :: '0' :: hexDigitChar (c.toNat / 16) :: [hexDigitChar (c.toNat % 16)]
  else [c]

/-- JSON.stringify rendering of a string value: escaped characters wrapped
in double quotes. -/
def jsonQuote (s : String) : String :=
  String.mk ('"' :: (s.data.flatMap escapeChar ++ ['"']))

/-- UTF-16 code units of a character: one unit for a BMP code point, a
surrogate pair for a supplementary-plane code point.  JS strings are
sequences of UTF-16 code units, and the default Array sort compares key
strings unit by unit. -/
def u16Char (c : Char) : List Nat :=
  if c.toNat < 0x10000 then [c.toNat]
  else [0xd800 + (c.toNat - 0x10000) / 0x400, 0xdc00 + (c.toNat - 0x10000) % 0x400]

/-- UTF-16 code units of a string. -/
def u16 (s : String) : List Nat := s.data.flatMap u16Char

/-- Lexicographic comparison of code-unit lists: the order that the default
JS string comparison induces. -/
def unitsLE : List Nat → List Nat → Bool
  | [], _ => true
  | _ :: _, [] => false
  | a :: as, b :: bs => if a < b then true else if b < a then false else unitsLE as bs

/-- Default JS string order: lexicographic on UTF-16 code units.  This is
the comparison Object.keys(value).sort() uses on mapping keys. -/
def jsLE (s t : String) : Prop := unitsLE (u16 s) (u16 t) = true

instance : DecidableRel jsLE := fun _ _ => inferInstanceAs (Decidable (_ = true))

theorem unitsLE_total : ∀ as bs : List Nat, unitsLE as bs = true ∨ unitsLE bs as = true
  | [], _ => Or.inl rfl
  | _ :: _, [] => Or.inr rfl
  | a :: as, b :: bs => by
    rcases Nat.lt_trichotomy a b with h | h | h
    · left; simp [unitsLE, h]
    · subst h
      rcases unitsLE_total as bs with ih | ih
      · left; simp [unitsLE, ih]
      · right; simp [unitsLE, ih]
    · right; simp [unitsLE, h]

theorem unitsLE_trans :
    ∀ as bs cs : List Nat,
      unitsLE as bs = true → unitsLE bs cs = true → unitsLE as cs = true
  | [], _, _, _, _ => rfl
  | _ :: _, [], _, h, _ => by simp [unitsLE] at h
  | _ :: _, _ :: _, [], _, h => by simp [unitsLE] at h
  | a :: as, b :: bs, c :: cs, h1, h2 => by
    simp only [unitsLE] at h1 h2 ⊢
    rcases Nat.lt_trichotomy a b with hab | hab | hab
    · rcases Nat.lt_trichotomy b c with hbc | hbc | hbc
      · simp [show a < c by omega]
      · simp [show a < c by omega]
      · simp [show ¬ b < c by omega, hbc] at h2
    · subst hab
      rcases Nat.lt_trichotomy a c with hac | hac | hac
      · simp [hac]
      · subst hac
        simp [show ¬ a < a by omega] at h1 h2 ⊢
        exact unitsLE_trans as bs cs h1 h2
      · simp [show ¬ a < c by omega, hac] at h2
    · simp [show ¬ a < b by omega, hab] at h1

theorem unitsLE_antisymm :
    ∀ as bs : List Nat, unitsLE as bs = true → unitsLE bs as = true → as = bs
  | [], [], _, _ => rfl
  | [], _ :: _, _, h => by simp [unitsLE] at h
  | _ :: _, [], h, _ => by simp [unitsLE] at h
  | a :: as, b :: bs, h1, h2 => by
    simp only [unitsLE] at h1 h2
    rcases Nat.lt_trichotomy a b with hab | hab | hab
    · simp [show ¬ b < a by omega, hab] at h2
    · subst hab
      simp [show ¬ a < a by omega] at h1 h2
      rw [unitsLE_antisymm as bs h1 h2]
    · simp [show ¬ a < b by omega, hab] at h1

example : unitsLE [1, 2] [1, 3] = true := rfl
example : jsLE "a" "b" := by decide

theorem char_valid_nat (c : Char) : c.toNat < 0xd800 ∨ (0xdfff < c.toNat ∧ c.toNat < 0x110000) :=
  c.valid

theorem char_toNat_inj {c d : Char} (h : c.toNat = d.toNat) : c = d := by
  apply Char.ext
  apply UInt32.ext
  exact h

theorem u16Char_bmp {c : Char} (h : c.toNat < 0x10000) : u16Char c = [c.toNat] := by
  simp [u16Char, h]

theorem u16Char_astral {c : Char} (h : ¬ c.toNat < 0x10000) :
    u16Char c = [0xd800 + (c.toNat - 0x10000) / 0x400, 0xdc00 + (c.toNat - 0x10000) % 0x400] := by
  simp [u16Char, h]

theorem u16_chars_inj : ∀ s t : List Char, s.flatMap u16Char = t.flatMap u16Char → s = t
  | [], [], _ => rfl
  | [], c :: t, h => by
    exfalso
    rw [List.flatMap_nil, List.flatMap_cons] at h
    rcases Nat.lt_or_ge c.toNat 0x10000 with hc | hc
    · rw [u16Char_bmp hc] at h; exact absurd h (by simp)
    · rw [u16Char_astral (by omega)] at h; exact absurd h (by simp)
  | c :: t, [], h => by
    exfalso
    rw [List.flatMap_nil, List.flatMap_cons] at h
    rcases Nat.lt_or_ge c.toNat 0x10000 with hc | hc
    · rw [u16Char_bmp hc] at h; exact absurd h (by simp)
    · rw [u16Char_astral (by omega)] at h; exact absurd h (by simp)
  | c :: s, d :: t, h => by
    rw [List.flatMap_cons, List.flatMap_cons] at h
    have hcv := char_valid_nat c
    have hdv := char_valid_nat d
    by_cases hc : c.toNat < 0x10000 <;> by_cases hd : d.toNat < 0x10000
    · rw [u16Char_bmp hc, u16Char_bmp hd] at h
      simp only [List.cons_append, List.cons.injEq] at h
      rw [char_toNat_inj h.1, u16_chars_inj s t h.2]
    · rw [u16Char_bmp hc, u16Char_astral hd] at h
      simp only [List.cons_append, List.cons.injEq] at h
      exfalso
      have h1 := h.1
      omega
    · rw [u16Char_astral hc, u16Char_bmp hd] at h
      simp only [List.cons_append, List.cons.injEq] at h
      exfalso
      have h1 := h.1
      omega
    · rw [u16Char_astral hc, u16Char_astral hd] at h
      simp only [List.cons_append, List.cons.injEq] at h
      obtain ⟨h1, h2, h3⟩ := h
      have : c.toNat = d.toNat := by omega
      rw [char_toNat_inj this, u16_chars_inj s t h3]

theorem u16_inj : ∀ {s t : String}, u16 s = u16 t → s = t
  | ⟨s⟩, ⟨t⟩, h => congrArg String.mk (u16_chars_inj s t h)

instance : IsTotal String jsLE := ⟨fun s t => unitsLE_total (u16 s) (u16 t)⟩

instance : IsTrans String jsLE := ⟨fun _ _ _ h1 h2 => unitsLE_trans _ _ _ h1 h2⟩

instance : IsAntisymm String jsLE := ⟨fun _ _ h1 h2 => u16_inj (unitsLE_antisymm _ _ h1 h2)⟩

/-- Key order on entry pairs: compare the key component with the default JS
string order.  Sorting entry pairs this way is exactly what sorting
Object.keys and reading each key back does on a JS object, whose keys are
duplicate-free. -/
def keyLE {α : Type} (p q : String × α) : Prop := jsLE p.1 q.1

instance {α : Type} : DecidableRel (@keyLE α) := fun p q => inferInstanceAs (Decidable (jsLE p.1 q.1))

instance {α : Type} : IsTotal (String × α) keyLE := ⟨fun p q => IsTotal.total (r := jsLE) p.1 q.1⟩

instance {α : Type} : IsTrans (String × α) keyLE :=
  ⟨fun _ _ _ h1 h2 => IsTrans.trans (r := jsLE) _ _ _ h1 h2⟩

/-- Strict key order; used only to recover canonicity of sorting for entry
lists with duplicate-free keys. -/
def keyLT {α : Type} (p q : String × α) : Prop := ¬ jsLE q.1 p.1

instance {α : Type} : IsAntisymm (String × α) keyLT :=
  ⟨fun p q h1 h2 => absurd ((IsTotal.total (r := jsLE) p.1 q.1).resolve_left h2) h1⟩

/-- Entry sort by key under the JS default string order, the embedding of
Object.keys(value).sort(). -/
def sortEntries {α : Type} (l : List (String × α)) : List (String × α) :=
  List.insertionSort keyLE l

theorem keyLT_of_keyLE_ne {α : Type} {p q : String × α}
    (hle : keyLE p q) (hne : p.1 ≠ q.1) : keyLT p q :=
  fun h => hne (antisymm (r := jsLE) hle h)

theorem sorted_keyLT_of_nodup {α : Type} {l : List (String × α)}
    (hs : List.Sorted (@keyLE α) l) (hnd : (l.map Prod.fst).Nodup) :
    List.Sorted (@keyLT α) l := by
  have hne : List.Pairwise (fun p q : String × α => p.1 ≠ q.1) l := List.pairwise_map.mp hnd
  exact (hs.and hne).imp fun h => keyLT_of_keyLE_ne h.1 h.2

/-- Two entry lists with duplicate-free keys that are permutations of each
other sort to the same list: the sorted order is canonical. -/
theorem sortEntries_eq_of_perm {α : Type} {e1 e2 : List (String × α)}
    (hnd : (e1.map Prod.fst).Nodup) (hp : e1.Perm e2) :
    sortEntries e1 = sortEntries e2 := by
  have hp1 : (sortEntries e1).Perm e1 := List.perm_insertionSort _ _
  have hp2 : (sortEntries e2).Perm e2 := List.perm_insertionSort _ _
  have hnd2 : (e2.map Prod.fst).Nodup := ((hp.map Prod.fst).nodup_iff).mp hnd
  refine List.eq_of_perm_of_sorted (r := @keyLT α) ((hp1.trans hp).trans hp2.symm) ?_ ?_
  · exact sorted_keyLT_of_nodup (List.sorted_insertionSort _ _)
      (((hp1.map Prod.fst).nodup_iff).mpr hnd)
  · exact sorted_keyLT_of_nodup (List.sorted_insertionSort _ _)
      (((hp2.map Prod.fst).nodup_iff).mpr hnd2)

/-- JS numbers reaching JSON.stringify: the exact integral doubles (the
safe-integer range, printed in plain decimal) plus the three non-finite
values.  JSON.stringify prints NaN, Infinity and -Infinity as null. -/
inductive JNum where
  | int : Int → JNum
  | nan : JNum
  | posInf : JNum
  | negInf : JNum
deriving DecidableEq

/-- Supported JS value shapes reaching the encoder, the data model of §3:
null, boolean, number, string, ordered sequence, keyed mapping.  A mapping
is its entry list in insertion order. -/
inductive Value where
  | null : Value
  | bool : Bool → Value
  | num : JNum → Value
  | str : String → Value
  | arr : List Value → Value
  | obj : List (String × Value) → Value

/-- JSON.stringify output for a number value. -/
def jnumRepr : JNum → String
  | .int i => String.mk (intChars i)
  | .nan => "null"
  | .posInf => "null"
  | .negInf => "null"

/-- Comma join, as Array.prototype.join with separator comma. -/
def joinComma : List String → String
  | [] => ""
  | [s] => s
  | s :: rest => s ++ "," ++ joinComma rest

mutual
/-- Shallow embedding of canonicalize from src/core/canonical.ts.
Primitives print via JSON.stringify.  An array canonicalizes its elements
in order and joins them with commas inside brackets.  An object emits its
entries sorted by key under the JS default string sort (UTF-16 code-unit
lexicographic), each as quoted key, colon, canonical value, joined with
commas inside braces.  The source sorts Object.keys(value) and then reads
value[key] for each key; on JS objects, whose key lists are duplicate-free,
that is the same as sorting the canonicalized entry list by key, and the
fidelity lemma canonicalize_obj_keys below restates this case in the exact
keys-then-lookup shape of the source. -/
def canonicalize : Value → String
  | .null => "null"
  | .bool true => "true"
  | .bool false => "false"
  | .num j => jnumRepr j
  | .str s => jsonQuote s
  | .arr xs => "[" ++ joinComma (canonList xs) ++ "]"
  | .obj e =>
    "\x7b" ++ joinComma ((sortEntries (canonEntries e)).map (fun p => jsonQuote p.1 ++ ":" ++ p.2)) ++ "\x7d"
termination_by structural v => v

/-- Elementwise canonicalization of array elements, in order. -/
def canonList : List Value → List String
  | [] => []
  | v :: vs => canonicalize v :: canonList vs
termination_by structural l => l

/-- Canonicalization of each entry value of an object, keys kept. -/
def canonEntries : List (String × Value) → List (String × String)
  | [] => []
  | (k, v) :: rest => (k, canonicalize v) :: canonEntries rest
termination_by structural l => l
end

example : canonicalize (.arr [.num (.int 1), .num (.int 2), .num (.int 3)]) = "[1,2,3]" := rfl

example :
    canonicalize (.obj [("b", .num (.int 2)), ("a", .num (.int 1))]) =
      String.mk ['{', '"', 'a', '"', ':', '1', ',', '"', 'b', '"', ':', '2', '}'] := rfl

example : canonicalize (.str "a\"b") = String.mk ['"', 'a', '\\', '"', 'b', '"'] := rfl

example : canonicalize (.num (.int (-37))) = "-37" := rfl

example : canonicalize (.num .nan) = "null" := rfl

theorem canonList_eq_map : ∀ xs : List Value, canonList xs = xs.map canonicalize
  | [] => rfl
  | v :: vs => by rw [canonList, List.map_cons, canonList_eq_map vs]

theorem canonEntries_eq_map :
    ∀ e : List (String × Value), canonEntries e = e.map (fun p => (p.1, canonicalize p.2))
  | [] => rfl
  | (k, v) :: rest => by rw [canonEntries, List.map_cons, canonEntries_eq_map rest]

/-- Key sort on plain key lists, the literal Object.keys(value).sort() of
the source. -/
def sortKeys (l : List String) : List String := List.insertionSort jsLE l

/-- Reading value[key] on an object embedded as an entry list: the first
binding of the key (JS objects have at most one). -/
def lookupEntry : List (String × Value) → String → Value
  | [], _ => .null
  | (k, v) :: rest, key => if k = key then v else lookupEntry rest key

/-- Strict JS string order. -/
def jsLT (s t : String) : Prop := ¬ jsLE t s

instance : IsAntisymm String jsLT :=
  ⟨fun s t h1 h2 => absurd ((IsTotal.total (r := jsLE) s t).resolve_left h2) h1⟩

theorem sorted_jsLT_of_nodup {l : List String}
    (hs : List.Sorted jsLE l) (hnd : l.Nodup) : List.Sorted jsLT l :=
  (hs.and hnd).imp fun h hc => h.2 (antisymm (r := jsLE) h.1 hc)

theorem orderedInsert_map_keyfst {α β : Type} (g : String × α → String × β)
    (hg : ∀ p, (g p).1 = p.1) (a : String × α) :
    ∀ l : List (String × α),
      List.orderedInsert keyLE (g a) (l.map g) = (List.orderedInsert keyLE a l).map g
  | [] => rfl
  | b :: l => by
    have hrel : keyLE (g a) (g b) ↔ keyLE a b := by unfold keyLE; rw [hg a, hg b]
    by_cases h : keyLE a b
    · rw [List.map_cons, List.orderedInsert, List.orderedInsert,
        if_pos (hrel.mpr h), if_pos h, List.map_cons, List.map_cons]
    · rw [List.map_cons, List.orderedInsert, List.orderedInsert,
        if_neg (fun hc => h (hrel.mp hc)), if_neg h, List.map_cons,
        orderedInsert_map_keyfst g hg a l]

theorem sortEntries_map_keyfst {α β : Type} (g : String × α → String × β)
    (hg : ∀ p, (g p).1 = p.1) :
    ∀ l : List (String × α), sortEntries (l.map g) = (sortEntries l).map g
  | [] => rfl
  | a :: l => by
    simp only [sortEntries, List.map_cons, List.insertionSort]
    rw [show List.insertionSort keyLE (List.map g l) = List.map g (List.insertionSort keyLE l) from
      sortEntries_map_keyfst g hg l]
    exact orderedInsert_map_keyfst g hg a (List.insertionSort keyLE l)

theorem lookupEntry_of_mem :
    ∀ {e : List (String × Value)}, (e.map Prod.fst).Nodup →
      ∀ {p : String × Value}, p ∈ e → lookupEntry e p.1 = p.2
  | [], _, _, hp => absurd hp (List.not_mem_nil _)
  | (k, v) :: rest, hnd, p, hp => by
    rw [List.map_cons, List.nodup_cons] at hnd
    rcases List.mem_cons.mp hp with rfl | hp
    · rw [lookupEntry, if_pos rfl]
    · have hk : k ≠ p.1 := by
        intro h
        refine hnd.1 ?_
        rw [h]
        exact List.mem_map.mpr ⟨p, hp, rfl⟩
      rw [lookupEntry, if_neg hk, lookupEntry_of_mem hnd.2 hp]

/-- Keys of the sorted entry list are the sorted keys. -/
theorem map_fst_sortEntries (e : List (String × Value)) (hnd : (e.map Prod.fst).Nodup) :
    (sortEntries e).map Prod.fst = sortKeys (e.map Prod.fst) := by
  have hperm : ((sortEntries e).map Prod.fst).Perm (e.map Prod.fst) :=
    (List.perm_insertionSort keyLE e).map Prod.fst
  have hperm2 : (sortKeys (e.map Prod.fst)).Perm (e.map Prod.fst) :=
    List.perm_insertionSort jsLE _
  refine List.eq_of_perm_of_sorted (r := jsLT) (hperm.trans hperm2.symm) ?_ ?_
  · refine sorted_jsLT_of_nodup ?_ (hperm.nodup_iff.mpr hnd)
    have hs := List.sorted_insertionSort keyLE e
    exact List.pairwise_map.mpr hs
  · exact sorted_jsLT_of_nodup (List.sorted_insertionSort jsLE _) (hperm2.nodup_iff.mpr hnd)

/-- Fidelity lemma: on an entry list with duplicate-free keys (every JS
object), the object case of canonicalize is literally the source's shape:
sort Object.keys(value), then emit quoted key, colon, canonicalized
value[key], joined with commas inside braces. -/
theorem canonicalize_obj_keys (e : List (String × Value)) (hnd : (e.map Prod.fst).Nodup) :
    canonicalize (.obj e) =
      "\x7b" ++ joinComma ((sortKeys (e.map Prod.fst)).map
        (fun k => jsonQuote k ++ ":" ++ canonicalize (lookupEntry e k))) ++ "\x7d" := by
  rw [canonicalize, canonEntries_eq_map,
    sortEntries_map_keyfst (fun p => (p.1, canonicalize p.2)) (fun _ => rfl) e,
    ← map_fst_sortEntries e hnd, List.map_map, List.map_map]
  have hmaps :
      List.map ((fun p : String × String => jsonQuote p.1 ++ ":" ++ p.2) ∘
          fun p : String × Value => (p.1, canonicalize p.2)) (sortEntries e) =
        List.map ((fun k => jsonQuote k ++ ":" ++ canonicalize (lookupEntry e k)) ∘ Prod.fst)
          (sortEntries e) := by
    apply List.map_congr_left
    intro p hp
    have hpe : p ∈ e := (List.perm_insertionSort keyLE e).mem_iff.mp hp
    simp only [Function.comp_apply]
    rw [lookupEntry_of_mem hnd hpe]
  rw [hmaps]

/-- UTF-8 bytes of a character (standard 1 to 4 byte encoding). -/
def utf8Char (c : Char) : List Nat :=
  let n := c.toNat
  if n < 0x80 then [n]
  else if n < 0x800 then [0xc0 + n / 0x40, 0x80 + n % 0x40]
  else if n < 0x10000 then [0xe0 + n / 0x1000, 0x80 + (n / 0x40) % 0x40, 0x80 + n % 0x40]
  else [0xf0 + n / 0x40000, 0x80 + (n / 0x1000) % 0x40, 0x80 + (n / 0x40) % 0x40, 0x80 + n % 0x40]

/-- UTF-8 encoding of a string: the bytes node hashes when
createHash('sha256').update receives a JS string with default encoding. -/
def utf8Bytes (s : String) : List Nat := s.data.flatMap utf8Char

/-! SHA-256 (FIPS 180-4), the hash behind createHash('sha256'), modelled on
Nat with explicit reduction mod 2^32.  Validated below against the standard
test vectors for the empty message and for abc. -/

/-- Reduction to a 32-bit word. -/
def w32 (x : Nat) : Nat := x % 4294967296

/-- Right rotation of a 32-bit word. -/
def rotr (n x : Nat) : Nat := w32 ((x >>> n) ||| (x <<< (32 - n)))

def bsig0 (x : Nat) : Nat := rotr 2 x ^^^ rotr 13 x ^^^ rotr 22 x

def bsig1 (x : Nat) : Nat := rotr 6 x ^^^ rotr 11 x ^^^ rotr 25 x

def ssig0 (x : Nat) : Nat := rotr 7 x ^^^ rotr 18 x ^^^ (x >>> 3)

def ssig1 (x : Nat) : Nat := rotr 17 x ^^^ rotr 19 x ^^^ (x >>> 10)

def ch (x y z : Nat) : Nat := (x &&& y) ^^^ ((x ^^^ 0xffffffff) &&& z)

def maj (x y z : Nat) : Nat := (x &&& y) ^^^ (x &&& z) ^^^ (y &&& z)

/-- Round constants of SHA-256 (FIPS 180-4), in decimal. -/
def sha256K : List Nat :=
  [1116352408, 1899447441, 3049323471, 3921009573, 961987163, 1508970993,
   2453635748, 2870763221, 3624381080, 310598401, 607225278, 1426881987,
   1925078388, 2162078206, 2614888103, 3248222580, 3835390401, 4022224774,
   264347078, 604807628, 770255983, 1249150122, 1555081692, 1996064986,
   2554220882, 2821834349, 2952996808, 3210313671, 3336571891, 3584528711,
   113926993, 338241895, 666307205, 773529912, 1294757372, 1396182291,
   1695183700, 1986661051, 2177026350, 2456956037, 2730485921, 2820302411,
   3259730800, 3345764771, 3516065817, 3600352804, 4094571909, 275423344,
   430227734, 506948616, 659060556, 883997877, 958139571, 1322822218,
   1537002063, 1747873779, 1955562222, 2024104815, 2227730452, 2361852424,
   2428436474, 2756734187, 3204031479, 3329325298]

/-- Hash state: the eight working words. -/
def ShaState : Type := Nat × Nat × Nat × Nat × Nat × Nat × Nat × Nat

/-- Initial hash value of SHA-256. -/
def sha256Init : ShaState :=
  (1779033703, 3144134277, 1013904242, 2773480762, 1359893119, 2600822924, 528734635, 1541459225)

/-- Extend the message schedule by one word. -/
def schedStep (ws : List Nat) : List Nat :=
  let l := ws.length
  ws ++ [w32 (ssig1 (ws.getD (l - 2) 0) + ws.getD (l - 7) 0 + ssig0 (ws.getD (l - 15) 0) +
    ws.getD (l - 16) 0)]

/-- Iterate the schedule extension. -/
def schedN : Nat → List Nat → List Nat
  | 0, ws => ws
  | k + 1, ws => schedN k (schedStep ws)

/-- The 64 compression rounds. -/
def rounds : List Nat → List Nat → ShaState → ShaState
  | [], _, st => st
  | _ :: _, [], st => st
  | k :: ks, w :: ws, (a, b, c, d, e, f, g, h) =>
    let t1 := w32 (h + bsig1 e + ch e f g + k + w)
    let t2 := w32 (bsig0 a + maj a b c)
    rounds ks ws (w32 (t1 + t2), a, b, c, w32 (d + t1), e, f, g)

/-- One block: run the rounds on the extended schedule and add the result
into the incoming state. -/
def processBlock (st : ShaState) (block : List Nat) : ShaState :=
  match st, rounds sha256K (schedN 48 block) st with
  | (a, b, c, d, e, f, g, h), (a', b', c', d', e', f', g', h') =>
    (w32 (a + a'), w32 (b + b'), w32 (c + c'), w32 (d + d'),
     w32 (e + e'), w32 (f + f'), w32 (g + g'), w32 (h + h'))

/-- Consume the padded message sixteen words at a time. -/
def processBlocks : ShaState → List Nat → ShaState
  | st, w0 :: w1 :: w2 :: w3 :: w4 :: w5 :: w6 :: w7 ::
      w8 :: w9 :: w10 :: w11 :: w12 :: w13 :: w14 :: w15 :: rest =>
    processBlocks (processBlock st [w0, w1, w2, w3, w4, w5, w6, w7,
      w8, w9, w10, w11, w12, w13, w14, w15]) rest
  | st, _ => st

/-- Big-endian 32-bit words from bytes. -/
def bytesToWords : List Nat → List Nat
  | b0 :: b1 :: b2 :: b3 :: rest =>
    (b0 * 0x1000000 + b1 * 0x10000 + b2 * 0x100 + b3) :: bytesToWords rest
  | _ => []

/-- Big-endian 8-byte encoding of the bit length. -/
def lenBytes (n : Nat) : List Nat :=
  [n / 0x100000000000000 % 256, n / 0x1000000000000 % 256, n / 0x10000000000 % 256,
   n / 0x100000000 % 256, n / 0x1000000 % 256, n / 0x10000 % 256, n / 0x100 % 256, n % 256]

/-- SHA-256 padding: append 0x80, zero bytes to 56 mod 64, then the 64-bit
big-endian bit length. -/
def padBytes (msg : List Nat) : List Nat :=
  msg ++ [0x80] ++ List.replicate ((64 - (msg.length + 9) % 64) % 64) 0 ++ lenBytes (msg.length * 8)

/-- Eight lowercase hex digits of a 32-bit word. -/
def wordHex (w : Nat) : List Char :=
  [hexDigitChar (w >>> 28 % 16), hexDigitChar (w >>> 24 % 16), hexDigitChar (w >>> 20 % 16),
   hexDigitChar (w >>> 16 % 16), hexDigitChar (w >>> 12 % 16), hexDigitChar (w >>> 8 % 16),
   hexDigitChar (w >>> 4 % 16), hexDigitChar (w % 16)]

/-- Hex rendering of the final state, eight times eight digits. -/
def stateHex : ShaState → List Char
  | (a, b, c, d, e, f, g, h) =>
    wordHex a ++ wordHex b ++ wordHex c ++ wordHex d ++
    wordHex e ++ wordHex f ++ wordHex g ++ wordHex h

/-- Lowercase hex SHA-256 digest characters of a byte message. -/
def sha256HexChars (msg : List Nat) : List Char :=
  stateHex (processBlocks sha256Init (bytesToWords (padBytes msg)))

/-- Embedding of sha256Hex from src/core/canonical.ts: SHA-256 over the
UTF-8 bytes of the canonical string, rendered as lowercase hex. -/
def sha256Hex (input : Value) : String :=
  String.mk (sha256HexChars (utf8Bytes (canonicalize input)))

/-- Embedding of id32 from src/core/canonical.ts: prefix, underscore, then
the first 32 characters of the hex digest ( String.slice(0, 32) on the
ASCII hex digest is List.take 32 on its characters).  The TS signature
declares material as string, but the runtime passes any value through to
sha256Hex unchanged, so the embedding takes a Value; a typed call passes a
Value.str. -/
def id32 ( pfx : String) (material : Value) : String :=
  pfx ++ "_" ++ String.mk ((sha256Hex material).data.take 32)

example :
    String.mk (sha256HexChars []) =
      "e3b0c44298fc1c149afbf4c8996fb92427ae41e4649b934ca495991b7852b855" := by rfl

example :
    String.mk (sha256HexChars (utf8Bytes "abc")) =
      "ba7816bf8f01cfea414140de5dae2223b00361a396177a9cb410ff61f20015ad" := by rfl

/-- C1 core: permutation invariance of canonicalize on mappings. -/
theorem canonicalize_obj_perm (e1 e2 : List (String × Value))
    (hnd : (e1.map Prod.fst).Nodup) (hp : e1.Perm e2) :
    canonicalize (.obj e1) = canonicalize (.obj e2) := by
  have hperm : (canonEntries e1).Perm (canonEntries e2) := by
    rw [canonEntries_eq_map, canonEntries_eq_map]
    exact hp.map _
  have hfst : (Prod.fst ∘ fun p : String × Value => (p.1, canonicalize p.2)) = Prod.fst :=
    funext fun _ => rfl
  have hnd1 : ((canonEntries e1).map Prod.fst).Nodup := by
    rw [canonEntries_eq_map, List.map_map, hfst]
    exact hnd
  show "\x7b" ++ joinComma ((sortEntries (canonEntries e1)).map _) ++ "\x7d" = _
  rw [sortEntries_eq_of_perm hnd1 hperm]
  rfl

/-- C1: for mappings with the same keys bound to the same values, differing
only in entry insertion order, canonicalize and hence the digest agree. -/
theorem canonicalize_digest_order_independent (e1 e2 : List (String × Value))
    (hnd : (e1.map Prod.fst).Nodup) (hp : e1.Perm e2) :
    canonicalize (.obj e1) = canonicalize (.obj e2) ∧
      sha256Hex (.obj e1) = sha256Hex (.obj e2) := by
  have h := canonicalize_obj_perm e1 e2 hnd hp
  exact ⟨h, congrArg (fun s => String.mk (sha256HexChars (utf8Bytes s))) h⟩

/-- C1 witness at the spec's example pair of mappings. -/
theorem canonicalize_digest_order_independent_witness :
    canonicalize (.obj [("a", .num (.int 1)), ("b", .num (.int 2))]) =
        canonicalize (.obj [("b", .num (.int 2)), ("a", .num (.int 1))]) ∧
      sha256Hex (.obj [("a", .num (.int 1)), ("b", .num (.int 2))]) =
        sha256Hex (.obj [("b", .num (.int 2)), ("a", .num (.int 1))]) :=
  canonicalize_digest_order_independent _ _ (by decide)
    (List.Perm.swap ("b", Value.num (JNum.int 2)) ("a", Value.num (JNum.int 1)) [])

/-- Code-point lexicographic string order (what the spec asserts for key
ordering), as opposed to the UTF-16 code-unit order the code uses. -/
def cpLE (s t : String) : Prop :=
  unitsLE (s.data.map Char.toNat) (t.data.map Char.toNat) = true

instance : DecidableRel cpLE := fun _ _ => inferInstanceAs (Decidable (_ = true))

/-- The C4 claim applied to one mapping: the output is the canonicalized
entries emitted in some order that is sorted by code-point comparison of
the keys. -/
def emitsKeysInCodePointOrder (e : List (String × Value)) : Prop :=
  ∃ ps : List (String × String),
    canonicalize (.obj e) =
        "\x7b" ++ joinComma (ps.map (fun p => jsonQuote p.1 ++ ":" ++ p.2)) ++ "\x7d" ∧
      ps.Perm (canonEntries e) ∧ ps.Pairwise (fun p q => cpLE p.1 q.1)

theorem perm_pair {α : Type} {ps : List α} {a b : α} (h : ps.Perm [a, b]) :
    ps = [a, b] ∨ ps = [b, a] := by
  have hlen : ps.length = 2 := h.length_eq
  match ps, hlen with
  | [x, y], _ =>
    have hx : x ∈ [a, b] := h.subset (List.mem_cons_self x [y])
    rcases List.mem_cons.mp hx with rfl | hx2
    · left
      have : [y].Perm [b] := (List.perm_cons x).mp h
      rw [List.perm_singleton.mp this]
    · have hxb : x = b := by
        rcases List.mem_cons.mp hx2 with h1 | h1
        · exact h1
        · exact absurd h1 (List.not_mem_nil x)
      subst hxb
      right
      have hswap : ([a, x]).Perm [x, a] := List.Perm.swap x a []
      have : [y].Perm [a] := (List.perm_cons x).mp (h.trans hswap)
      rw [List.perm_singleton.mp this]

/-- C4 counterexample: a mapping whose keys are U+FF5E (one code unit,
0xff5e) and U+1D11E (surrogate pair 0xd834 0xdd1e).  In code-point order
U+FF5E sorts first; the code sorts by UTF-16 code units and emits U+1D11E
first, so the claimed code-point ordering fails on this input. -/
theorem canonicalize_astral_key_counterexample :
    ¬ emitsKeysInCodePointOrder [("～", .num (.int 1)), ("𝄞", .num (.int 2))] := by
  rintro ⟨ps, hout, hperm, hsort⟩
  have hentries : canonEntries [("～", Value.num (.int 1)), ("𝄞", Value.num (.int 2))] =
      [("～", "1"), ("𝄞", "2")] := rfl
  rw [hentries] at hperm
  rcases perm_pair hperm with rfl | rfl
  · exact absurd hout (by decide)
  · exact absurd hsort (by decide)

/-- C4 amended: canonicalize emits the mapping entries sorted by the keys'
UTF-16 code-unit lexicographic order (the JS default string sort), which
coincides with code-point order exactly when no key contains a
supplementary-plane character. -/
theorem canonicalize_obj_sorted_utf16 (e : List (String × Value)) :
    ∃ ps : List (String × String),
      canonicalize (.obj e) =
          "\x7b" ++ joinComma (ps.map (fun p => jsonQuote p.1 ++ ":" ++ p.2)) ++ "\x7d" ∧
        ps.Perm (canonEntries e) ∧ ps.Pairwise (fun p q => jsLE p.1 q.1) :=
  ⟨sortEntries (canonEntries e), rfl, List.perm_insertionSort _ _,
    List.sorted_insertionSort keyLE (canonEntries e)⟩

/-- C3 evaluation at the failing inputs: the code maps every non-finite
number to the string null instead of failing with EncodingError (there is
no EncodingError anywhere in the source, and no cycle guard). -/
theorem canonicalize_nonfinite_no_error :
    canonicalize (.num .nan) = "null" ∧ canonicalize (.num .posInf) = "null" ∧
      canonicalize (.num .negInf) = "null" :=
  ⟨rfl, rfl, rfl⟩

/-- C9: non-finite numbers canonicalize to the same string as null, so the
digest and the identifier cannot distinguish them from null. -/
theorem nonfinite_indistinguishable_from_null :
    (canonicalize (.num .nan) = canonicalize .null ∧
      canonicalize (.num .posInf) = canonicalize .null ∧
      canonicalize (.num .negInf) = canonicalize .null) ∧
    (sha256Hex (.num .nan) = sha256Hex .null ∧
      sha256Hex (.num .posInf) = sha256Hex .null ∧
      sha256Hex (.num .negInf) = sha256Hex .null) ∧
    ∀ pfx : String,
      id32 pfx (.num .nan) = id32 pfx .null ∧
        id32 pfx (.num .posInf) = id32 pfx .null ∧
        id32 pfx (.num .negInf) = id32 pfx .null :=
  ⟨⟨rfl, rfl, rfl⟩, ⟨rfl, rfl, rfl⟩, fun _ => ⟨rfl, rfl, rfl⟩⟩

/-- Lowercase hexadecimal character test. -/
def isHexChar (c : Char) : Bool :=
  decide ((48 ≤ c.toNat ∧ c.toNat ≤ 57) ∨ (97 ≤ c.toNat ∧ c.toNat ≤ 102))

theorem hexDigitChar_isHex : ∀ n : Nat, n < 16 → isHexChar (hexDigitChar n) = true := by decide

theorem mem_wordHex_isHex (w : Nat) : ∀ c ∈ wordHex w, isHexChar c = true := by
  intro c hc
  simp only [wordHex, List.mem_cons, List.not_mem_nil, or_false] at hc
  rcases hc with rfl | rfl | rfl | rfl | rfl | rfl | rfl | rfl <;>
    exact hexDigitChar_isHex _ (Nat.mod_lt _ (by omega))

theorem stateHex_length : ∀ st : ShaState, (stateHex st).length = 64
  | (a, b, c, d, e, f, g, h) => by simp [stateHex, wordHex]

theorem mem_stateHex_isHex : ∀ st : ShaState, ∀ c ∈ stateHex st, isHexChar c = true
  | (a, b, cc, d, e, f, g, h) => by
    intro c hc
    simp only [stateHex, List.mem_append] at hc
    rcases hc with ((((((hc | hc) | hc) | hc) | hc) | hc) | hc) | hc <;>
      exact mem_wordHex_isHex _ c hc

theorem sha256HexChars_length (msg : List Nat) : (sha256HexChars msg).length = 64 :=
  stateHex_length _

theorem mem_sha256HexChars_isHex (msg : List Nat) :
    ∀ c ∈ sha256HexChars msg, isHexChar c = true :=
  mem_stateHex_isHex _

/-- C5: id32 is the prefix, an underscore, and exactly the first 32
characters of the digest; the digest is the 64-character lowercase hex
SHA-256 of the UTF-8 bytes of the canonical form, so the identifier tail is
32 lowercase hex characters; and the function is pure, hence identical
across repeated runs on the same input. -/
theorem id32_spec ( pfx : String) (material : Value) :
    id32 pfx material = pfx ++ "_" ++ String.mk ((sha256Hex material).data.take 32) ∧
      sha256Hex material =
        String.mk (sha256HexChars (utf8Bytes (canonicalize material))) ∧
      (sha256Hex material).data.length = 64 ∧
      ((sha256Hex material).data.take 32).length = 32 ∧
      (∀ c ∈ (sha256Hex material).data.take 32, isHexChar c = true) ∧
      id32 pfx material = id32 pfx material := by
  refine ⟨rfl, rfl, ?_, ?_, ?_, rfl⟩
  · show (sha256HexChars (utf8Bytes (canonicalize material))).length = 64
    exact sha256HexChars_length _
  · show ((sha256HexChars (utf8Bytes (canonicalize material))).take 32).length = 32
    rw [List.length_take, sha256HexChars_length]
    omega
  · intro c hc
    exact mem_sha256HexChars_isHex _ c (List.mem_of_mem_take hc)

/-- C10: id32 performs no prefix validation and always returns a string of
length prefix length + 33 (prefix, underscore, 32 hex characters), for
every prefix including the empty string and strings with underscores or
arbitrary characters. -/
theorem id32_no_prefix_validation ( pfx : String) (material : Value) :
    (id32 pfx material).length = pfx.length + 33 ∧
      id32 pfx material = pfx ++ "_" ++ String.mk ((sha256Hex material).data.take 32) := by
  refine ⟨?_, rfl⟩
  show (pfx ++ "_" ++ String.mk ((sha256Hex material).data.take 32)).length = pfx.length + 33
  rw [String.length_append, String.length_append]
  have h64 : (sha256Hex material).data.length = 64 := sha256HexChars_length _
  have : (String.mk ((sha256Hex material).data.take 32)).length = 32 := by
    show ((sha256Hex material).data.take 32).length = 32
    rw [List.length_take, h64]
    omega
  rw [this]
  rfl

/-! Heap model for deepFreeze and deepClone.  Object.freeze acts on object
identity, so freezing and cloning are modelled over an explicit heap:
containers (arrays and plain objects) live at addresses and carry a frozen
flag, primitives are immediate values, and a property write through any
reference is a write at an address, which Object.freeze blocks. -/

/-- Immediate (primitive) JS values: not heap objects, immutable by
nature. -/
inductive PrimV where
  | pnull : PrimV
  | pbool : Bool → PrimV
  | pnum : JNum → PrimV
  | pstr : String → PrimV

/-- A reference: a primitive immediate or the address of a container. -/
inductive Ref where
  | prim : PrimV → Ref
  | addr : Nat → Ref

/-- Container contents: array element references or object fields in
insertion order. -/
inductive HContent where
  | arr : List Ref → HContent
  | obj : List (String × Ref) → HContent

/-- A heap node: contents plus the Object.freeze flag. -/
structure HNode where
  content : HContent
  frozen : Bool

/-- A heap: partial map from addresses to nodes. -/
def Heap : Type := Nat → Option HNode

/-- Point update of a heap. -/
def hUpdate (h : Heap) (a : Nat) (nd : HNode) : Heap :=
  fun x => if x = a then some nd else h x

/-- The heap described by a fragment of address-node pairs. -/
def heapOfFrag (frag : List (Nat × HNode)) : Heap :=
  fun a => (frag.find? (fun p => p.1 = a)).map Prod.snd

/-- Child references of a container in Object.keys order: array elements in
index order, object field values in insertion order. -/
def childRefs : HContent → List Ref
  | .arr rs => rs
  | .obj fs => fs.map Prod.snd

/-- Object.freeze: set the frozen flag of the node at an address. -/
def freezeAt (h : Heap) (a : Nat) : Heap :=
  fun x => if x = a then (h x).map (fun nd => ⟨nd.content, true⟩) else h x

/-- Set the frozen flag at every address of a list. -/
def freezeAll (as : List Nat) (h : Heap) : Heap :=
  fun x => if x ∈ as then (h x).map (fun nd => ⟨nd.content, true⟩) else h x

mutual
/-- Embedding of deepFreeze from src/core/canonical.ts over the heap, with
explicit fuel bounding the recursion depth.  The source Object.freezes the
container behind the reference, then recurses into every child reference;
it has no visited set and no depth bound, so fuel exhaustion (the none
result) models non-termination of the source recursion.  The loop body
reads obj[key] from the current heap, but freezing never changes contents,
so reading the children once at entry is the same. -/
def deepFreezeRef : Nat → Heap → Ref → Option Heap
  | 0, _, _ => none
  | _ + 1, h, .prim _ => some h
  | fuel + 1, h, .addr a =>
    match h a with
    | none => some h
    | some node => deepFreezeList fuel (freezeAt h a) (childRefs node.content)
termination_by fuel _ _ => (fuel, 0)

/-- The for loop of deepFreeze over the children of one node. -/
def deepFreezeList : Nat → Heap → List Ref → Option Heap
  | _, h, [] => some h
  | fuel, h, r :: rs =>
    match deepFreezeRef fuel h r with
    | none => none
    | some h2 => deepFreezeList fuel h2 rs
termination_by fuel _ rs => (fuel, rs.length + 1)
end

/-- An attempted mutation of the container at an address: replace its
contents arbitrarily (covering property writes, deletes, pushes).  Per
Object.freeze semantics a write to a frozen object is discarded (silently
in sloppy mode, with a TypeError in strict mode; either way the heap does
not change). -/
def tryWrite (h : Heap) (a : Nat) (mu : HContent → HContent) : Heap :=
  match h a with
  | none => h
  | some node => if node.frozen then h else hUpdate h a ⟨mu node.content, node.frozen⟩

/-- A one-node cyclic heap: an object whose field self points back to
itself (in JS: x = {}; x.self = x), with the given frozen flag. -/
def cyclicHeap (b : Bool) : Heap :=
  fun a => if a = (0 : Nat) then some ⟨.obj [("self", .addr (0 : Nat))], b⟩ else none

theorem cyclicHeap_freezeAt (b : Bool) : freezeAt (cyclicHeap b) (0 : Nat) = cyclicHeap true := by
  funext x
  unfold freezeAt cyclicHeap
  by_cases hx : x = (0 : Nat) <;> simp [hx]

/-- C7 failing input: deepFreeze never completes on a cyclic value, at any
recursion depth, because the source has no visited set: the traversal
re-enters the same node forever (in JS, unbounded recursion until the call
stack overflows). -/
theorem deepFreeze_cycle_no_fuel_suffices :
    ∀ (fuel : Nat) (b : Bool), deepFreezeRef fuel (cyclicHeap b) (.addr (0 : Nat)) = none := by
  intro fuel
  induction fuel with
  | zero => intro b; simp [deepFreezeRef]
  | succ n ih =>
    intro b
    have h0 : cyclicHeap b (0 : Nat) = some ⟨.obj [("self", .addr (0 : Nat))], b⟩ := by
      simp [cyclicHeap]
    rw [deepFreezeRef, h0, cyclicHeap_freezeAt]
    show deepFreezeList n (cyclicHeap true) [Ref.addr (0 : Nat)] = none
    rw [deepFreezeList, ih true]

mutual
/-- Allocation of a value tree into a heap fragment starting at the given
fresh address: the fragment lists children before their parent, and the
function returns the root reference and the next fresh address.  This is
the heap a JS program builds when it constructs the value literal. -/
def storeVal : Value → Nat → List (Nat × HNode) × Ref × Nat
  | .null, n => ([], .prim .pnull, n)
  | .bool b, n => ([], .prim (.pbool b), n)
  | .num j, n => ([], .prim (.pnum j), n)
  | .str s, n => ([], .prim (.pstr s), n)
  | .arr xs, n =>
    match storeList xs n with
    | (frag, refs, n2) => (frag ++ [(n2, ⟨.arr refs, false⟩)], .addr n2, n2 + 1)
  | .obj e, n =>
    match storeEntries e n with
    | (frag, fs, n2) => (frag ++ [(n2, ⟨.obj fs, false⟩)], .addr n2, n2 + 1)
termination_by structural v => v

/-- Allocation of the elements of an array. -/
def storeList : List Value → Nat → List (Nat × HNode) × List Ref × Nat
  | [], n => ([], [], n)
  | v :: vs, n =>
    match storeVal v n with
    | (f1, r, n1) =>
      match storeList vs n1 with
      | (f2, rs, n2) => (f1 ++ f2, r :: rs, n2)
termination_by structural l => l

/-- Allocation of the field values of an object. -/
def storeEntries : List (String × Value) → Nat → List (Nat × HNode) × List (String × Ref) × Nat
  | [], n => ([], [], n)
  | (k, v) :: rest, n =>
    match storeVal v n with
    | (f1, r, n1) =>
      match storeEntries rest n1 with
      | (f2, fs, n2) => (f1 ++ f2, (k, r) :: fs, n2)
termination_by structural l => l
end

mutual
/-- Recursion depth of a value tree (1 for a leaf). -/
def vdepth : Value → Nat
  | .null => 1
  | .bool _ => 1
  | .num _ => 1
  | .str _ => 1
  | .arr xs => vdepthList xs + 1
  | .obj e => vdepthEntries e + 1
termination_by structural v => v

def vdepthList : List Value → Nat
  | [] => 1
  | v :: vs => max (vdepth v) (vdepthList vs)
termination_by structural l => l

def vdepthEntries : List (String × Value) → Nat
  | [] => 1
  | (_, v) :: rest => max (vdepth v) (vdepthEntries rest)
termination_by structural l => l
end

mutual
/-- Reading a value tree back from the heap through a reference, with fuel
bounding the depth. -/
def readRef : Nat → Heap → Ref → Option Value
  | 0, _, _ => none
  | _ + 1, _, .prim .pnull => some .null
  | _ + 1, _, .prim (.pbool b) => some (.bool b)
  | _ + 1, _, .prim (.pnum j) => some (.num j)
  | _ + 1, _, .prim (.pstr s) => some (.str s)
  | fuel + 1, h, .addr a =>
    match h a with
    | none => none
    | some node =>
      match node.content with
      | .arr rs => (readRefs fuel h rs).map .arr
      | .obj fs => (readFields fuel h fs).map .obj
termination_by fuel _ _ => (fuel, 0)

def readRefs : Nat → Heap → List Ref → Option (List Value)
  | _, _, [] => some []
  | fuel, h, r :: rs =>
    match readRef fuel h r, readRefs fuel h rs with
    | some v, some vs => some (v :: vs)
    | _, _ => none
termination_by fuel _ rs => (fuel, rs.length + 1)

def readFields : Nat → Heap → List (String × Ref) → Option (List (String × Value))
  | _, _, [] => some []
  | fuel, h, (k, r) :: fs =>
    match readRef fuel h r, readFields fuel h fs with
    | some v, some rest => some ((k, v) :: rest)
    | _, _ => none
termination_by fuel _ fs => (fuel, fs.length + 1)
end

mutual
/-- Embedding of deepClone from src/core/canonical.ts over the heap:
primitives are returned as is, arrays are rebuilt elementwise, objects are
rebuilt field by field over Object.keys, all into fresh mutable nodes.
Fuel bounds the recursion depth as for deepFreezeRef. -/
def deepCloneRef : Nat → Heap → Ref → Nat → Option (Heap × Ref × Nat)
  | 0, _, _, _ => none
  | _ + 1, h, .prim p, fresh => some (h, .prim p, fresh)
  | fuel + 1, h, .addr a, fresh =>
    match h a with
    | none => none
    | some node =>
      match node.content with
      | .arr rs =>
        match deepCloneList fuel h rs fresh with
        | none => none
        | some (h2, rs2, n2) => some (hUpdate h2 n2 ⟨.arr rs2, false⟩, .addr n2, n2 + 1)
      | .obj fs =>
        match deepCloneFields fuel h fs fresh with
        | none => none
        | some (h2, fs2, n2) => some (hUpdate h2 n2 ⟨.obj fs2, false⟩, .addr n2, n2 + 1)
termination_by fuel _ _ _ => (fuel, 0)

/-- Elementwise cloning of array elements. -/
def deepCloneList : Nat → Heap → List Ref → Nat → Option (Heap × List Ref × Nat)
  | _, h, [], fresh => some (h, [], fresh)
  | fuel, h, r :: rs, fresh =>
    match deepCloneRef fuel h r fresh with
    | none => none
    | some (h1, r1, n1) =>
      match deepCloneList fuel h1 rs n1 with
      | none => none
      | some (h2, rs2, n2) => some (h2, r1 :: rs2, n2)
termination_by fuel _ rs _ => (fuel, rs.length + 1)

/-- Field by field cloning of object fields. -/
def deepCloneFields : Nat → Heap → List (String × Ref) → Nat → Option (Heap × List (String × Ref) × Nat)
  | _, h, [], fresh => some (h, [], fresh)
  | fuel, h, (k, r) :: fs, fresh =>
    match deepCloneRef fuel h r fresh with
    | none => none
    | some (h1, r1, n1) =>
      match deepCloneFields fuel h1 fs n1 with
      | none => none
      | some (h2, fs2, n2) => some (h2, (k, r1) :: fs2, n2)
termination_by fuel _ fs _ => (fuel, fs.length + 1)
end

/-- Agreement of a heap with a fragment up to frozen flags: every node of
the fragment is present with the same contents. -/
def agreeOn (frag : List (Nat × HNode)) (h : Heap) : Prop :=
  ∀ p ∈ frag, ∃ b : Bool, h p.1 = some ⟨p.2.content, b⟩

/-- Lay a fragment over a heap: fragment entries win. -/
def overlay (h : Heap) (frag : List (Nat × HNode)) : Heap :=
  fun a =>
    match heapOfFrag frag a with
    | some nd => some nd
    | none => h a

theorem heapOfFrag_not_mem {frag : List (Nat × HNode)} {a : Nat}
    (h : a ∉ frag.map Prod.fst) : heapOfFrag frag a = none := by
  have hn : List.find? (fun p => decide (p.1 = a)) frag = none := by
    apply List.find?_eq_none.mpr
    intro p hp
    simp only [decide_eq_true_eq]
    intro hpa
    exact h (hpa ▸ List.mem_map.mpr ⟨p, hp, rfl⟩)
  unfold heapOfFrag
  rw [hn]
  rfl

theorem heapOfFrag_mem :
    ∀ {frag : List (Nat × HNode)}, (frag.map Prod.fst).Nodup →
      ∀ {p : Nat × HNode}, p ∈ frag → heapOfFrag frag p.1 = some p.2
  | [], _, _, hp => absurd hp (List.not_mem_nil _)
  | q :: rest, hnd, p, hp => by
    rw [List.map_cons, List.nodup_cons] at hnd
    unfold heapOfFrag
    rcases List.mem_cons.mp hp with rfl | hp2
    · rw [List.find?_cons_of_pos _ (by simp)]
      rfl
    · have hq : (q.1 = p.1) = False := by
        simp only [eq_iff_iff, iff_false]
        intro h
        exact hnd.1 (h ▸ List.mem_map.mpr ⟨p, hp2, rfl⟩)
      rw [List.find?_cons_of_neg _ (by simp [hq])]
      exact heapOfFrag_mem hnd.2 hp2

theorem heapOfFrag_some_mem {frag : List (Nat × HNode)} {a : Nat} {nd : HNode}
    (h : heapOfFrag frag a = some nd) : a ∈ frag.map Prod.fst := by
  by_contra hmem
  rw [heapOfFrag_not_mem hmem] at h
  exact Option.noConfusion h

theorem heapOfFrag_append (f1 f2 : List (Nat × HNode)) (a : Nat) :
    heapOfFrag (f1 ++ f2) a =
      match heapOfFrag f1 a with
      | some nd => some nd
      | none => heapOfFrag f2 a := by
  induction f1 with
  | nil => rfl
  | cons q rest ih =>
    by_cases hq : q.1 = a
    · show heapOfFrag (q :: (rest ++ f2)) a = _
      unfold heapOfFrag
      rw [List.find?_cons_of_pos _ (by simp [hq]), List.find?_cons_of_pos _ (by simp [hq])]
      rfl
    · show heapOfFrag (q :: (rest ++ f2)) a = _
      unfold heapOfFrag
      rw [List.find?_cons_of_neg _ (by simp [hq]), List.find?_cons_of_neg _ (by simp [hq])]
      exact ih

theorem freezeAll_nil (h : Heap) : freezeAll [] h = h :=
  funext fun x => by simp [freezeAll]

theorem freezeAt_eq (h : Heap) (a : Nat) : freezeAt h a = freezeAll [a] h :=
  funext fun x => by by_cases hx : x = a <;> simp [freezeAt, freezeAll, hx]

theorem freezeAll_compose (as bs : List Nat) (h : Heap) :
    freezeAll bs (freezeAll as h) = freezeAll (as ++ bs) h := by
  funext x
  simp only [freezeAll, List.mem_append]
  by_cases ha : x ∈ as <;> by_cases hb : x ∈ bs <;>
    simp only [ha, hb, if_true, if_false, true_or, or_true, or_self, if_pos, if_neg,
      not_false_iff] <;>
    first
      | (rcases h x with _ | nd <;> rfl)
      | rfl
      | (simp [ha, hb])

theorem freezeAll_congr {as bs : List Nat} (h : Heap) (hiff : ∀ x, x ∈ as ↔ x ∈ bs) :
    freezeAll as h = freezeAll bs h := by
  funext x
  simp only [freezeAll]
  by_cases hx : x ∈ as
  · rw [if_pos hx, if_pos ((hiff x).mp hx)]
  · rw [if_neg hx, if_neg (fun hb => hx ((hiff x).mpr hb))]

theorem agreeOn_of_append_left {f1 f2 : List (Nat × HNode)} {h : Heap}
    (ha : agreeOn (f1 ++ f2) h) : agreeOn f1 h :=
  fun p hp => ha p (List.mem_append.mpr (Or.inl hp))

theorem agreeOn_of_append_right {f1 f2 : List (Nat × HNode)} {h : Heap}
    (ha : agreeOn (f1 ++ f2) h) : agreeOn f2 h :=
  fun p hp => ha p (List.mem_append.mpr (Or.inr hp))

theorem agreeOn_freezeAll (as : List Nat) {frag : List (Nat × HNode)} {h : Heap}
    (ha : agreeOn frag h) : agreeOn frag (freezeAll as h) := by
  intro p hp
  obtain ⟨b, hb⟩ := ha p hp
  by_cases hm : p.1 ∈ as
  · exact ⟨true, by simp [freezeAll, hm, hb]⟩
  · exact ⟨b, by simp [freezeAll, hm, hb]⟩

theorem tryWrite_ne {h : Heap} {a x : Nat} {mu : HContent → HContent} (hx : x ≠ a) :
    tryWrite h a mu x = h x := by
  unfold tryWrite
  rcases h a with _ | node
  · rfl
  · by_cases hf : node.frozen <;> simp [hf, hUpdate, hx]

theorem agreeOn_tryWrite {frag : List (Nat × HNode)} {h : Heap} {a : Nat}
    {mu : HContent → HContent} (hne : ∀ p ∈ frag, p.1 ≠ a) (ha : agreeOn frag h) :
    agreeOn frag (tryWrite h a mu) := by
  intro p hp
  obtain ⟨b, hb⟩ := ha p hp
  exact ⟨b, by rw [tryWrite_ne (hne p hp), hb]⟩

theorem overlay_nil (h : Heap) : overlay h [] = h :=
  funext fun _ => rfl

theorem overlay_not_mem {h : Heap} {frag : List (Nat × HNode)} {a : Nat}
    (hm : a ∉ frag.map Prod.fst) : overlay h frag a = h a := by
  unfold overlay
  rw [heapOfFrag_not_mem hm]

theorem agreeOn_overlay {frag f2 : List (Nat × HNode)} {h : Heap}
    (hdis : ∀ p ∈ frag, p.1 ∉ f2.map Prod.fst) (ha : agreeOn frag h) :
    agreeOn frag (overlay h f2) := by
  intro p hp
  obtain ⟨b, hb⟩ := ha p hp
  exact ⟨b, by rw [overlay_not_mem (hdis p hp), hb]⟩

theorem hUpdate_overlay_snoc {h : Heap} {frag : List (Nat × HNode)} {a : Nat} {nd : HNode}
    (hm : a ∉ frag.map Prod.fst) :
    hUpdate (overlay h frag) a nd = overlay h (frag ++ [(a, nd)]) := by
  funext x
  by_cases hx : x = a
  · subst hx
    have h1 : heapOfFrag (frag ++ [(x, nd)]) x = some nd := by
      rw [heapOfFrag_append, heapOfFrag_not_mem hm]
      unfold heapOfFrag
      rw [List.find?_cons_of_pos _ (by simp)]
      rfl
    simp [hUpdate, overlay, h1]
  · have h1 : heapOfFrag (frag ++ [(a, nd)]) x =
        match heapOfFrag frag x with
        | some nd2 => some nd2
        | none => none := by
      rw [heapOfFrag_append]
      rcases heapOfFrag frag x with _ | nd2
      · show heapOfFrag [(a, nd)] x = none
        apply heapOfFrag_not_mem
        simp [hx]
      · rfl
    simp only [hUpdate, if_neg hx, overlay, h1]
    rcases heapOfFrag frag x with _ | nd2 <;> rfl

theorem overlay_overlay {h : Heap} {f1 f2 : List (Nat × HNode)}
    (hdis : ∀ x ∈ f1.map Prod.fst, x ∉ f2.map Prod.fst) :
    overlay (overlay h f1) f2 = overlay h (f1 ++ f2) := by
  funext x
  simp only [overlay, heapOfFrag_append]
  rcases hf1 : heapOfFrag f1 x with _ | nd
  · rcases heapOfFrag f2 x with _ | nd2 <;> rfl
  · have hx2 : heapOfFrag f2 x = none :=
      heapOfFrag_not_mem (hdis x (heapOfFrag_some_mem hf1))
    rw [hx2]

mutual
theorem storeVal_range : ∀ (v : Value) (n : Nat),
    n ≤ (storeVal v n).2.2 ∧
      (∀ p ∈ (storeVal v n).1, n ≤ p.1 ∧ p.1 < (storeVal v n).2.2) ∧
      ((storeVal v n).1.map Prod.fst).Nodup ∧
      (∀ p ∈ (storeVal v n).1, p.2.frozen = false)
  | .null, n => ⟨Nat.le_refl n, by simp [storeVal], by simp [storeVal], by simp [storeVal]⟩
  | .bool b, n => ⟨Nat.le_refl n, by simp [storeVal], by simp [storeVal], by simp [storeVal]⟩
  | .num j, n => ⟨Nat.le_refl n, by simp [storeVal], by simp [storeVal], by simp [storeVal]⟩
  | .str s, n => ⟨Nat.le_refl n, by simp [storeVal], by simp [storeVal], by simp [storeVal]⟩
  | .arr xs, n => by
    have ih := storeList_range xs n
    rcases h1 : storeList xs n with ⟨frag, refs, n2⟩
    rw [h1] at ih
    dsimp only at ih
    have heq : storeVal (.arr xs) n =
        (frag ++ [(n2, ⟨HContent.arr refs, false⟩)], Ref.addr n2, n2 + 1) := by
      simp only [storeVal]
      rw [h1]
    rw [heq]
    dsimp only
    obtain ⟨ihle, ihbd, ihnd, ihfz⟩ := ih
    refine ⟨by omega, ?_, ?_, ?_⟩
    · intro p hp
      rcases List.mem_append.mp hp with hp1 | hp1
      · have := ihbd p hp1
        omega
      · rcases List.mem_cons.mp hp1 with rfl | hp2
        · exact ⟨by omega, by omega⟩
        · exact absurd hp2 (List.not_mem_nil p)
    · rw [List.map_append]
      refine List.Nodup.append ihnd (by simp) ?_
      intro x hx1 hx2
      simp only [List.map_cons, List.map_nil, List.mem_cons, List.not_mem_nil, or_false] at hx2
      obtain ⟨p, hp, hpx⟩ := List.mem_map.mp hx1
      have := ihbd p hp
      omega
    · intro p hp
      rcases List.mem_append.mp hp with hp1 | hp1
      · exact ihfz p hp1
      · rcases List.mem_cons.mp hp1 with rfl | hp2
        · rfl
        · exact absurd hp2 (List.not_mem_nil p)
  | .obj e, n => by
    have ih := storeEntries_range e n
    rcases h1 : storeEntries e n with ⟨frag, fs, n2⟩
    rw [h1] at ih
    dsimp only at ih
    have heq : storeVal (.obj e) n =
        (frag ++ [(n2, ⟨HContent.obj fs, false⟩)], Ref.addr n2, n2 + 1) := by
      simp only [storeVal]
      rw [h1]
    rw [heq]
    dsimp only
    obtain ⟨ihle, ihbd, ihnd, ihfz⟩ := ih
    refine ⟨by omega, ?_, ?_, ?_⟩
    · intro p hp
      rcases List.mem_append.mp hp with hp1 | hp1
      · have := ihbd p hp1
        omega
      · rcases List.mem_cons.mp hp1 with rfl | hp2
        · exact ⟨by omega, by omega⟩
        · exact absurd hp2 (List.not_mem_nil p)
    · rw [List.map_append]
      refine List.Nodup.append ihnd (by simp) ?_
      intro x hx1 hx2
      simp only [List.map_cons, List.map_nil, List.mem_cons, List.not_mem_nil, or_false] at hx2
      obtain ⟨p, hp, hpx⟩ := List.mem_map.mp hx1
      have := ihbd p hp
      omega
    · intro p hp
      rcases List.mem_append.mp hp with hp1 | hp1
      · exact ihfz p hp1
      · rcases List.mem_cons.mp hp1 with rfl | hp2
        · rfl
        · exact absurd hp2 (List.not_mem_nil p)
termination_by structural v => v

theorem storeList_range : ∀ (xs : List Value) (n : Nat),
    n ≤ (storeList xs n).2.2 ∧
      (∀ p ∈ (storeList xs n).1, n ≤ p.1 ∧ p.1 < (storeList xs n).2.2) ∧
      (((storeList xs n).1.map Prod.fst).Nodup) ∧
      (∀ p ∈ (storeList xs n).1, p.2.frozen = false)
  | [], n => ⟨Nat.le_refl n, by simp [storeList], by simp [storeList], by simp [storeList]⟩
  | v :: vs, n => by
    have ih1 := storeVal_range v n
    rcases h1 : storeVal v n with ⟨f1, r, n1⟩
    rw [h1] at ih1
    dsimp only at ih1
    have ih2 := storeList_range vs n1
    rcases h2 : storeList vs n1 with ⟨f2, rs, n2⟩
    rw [h2] at ih2
    dsimp only at ih2
    have heq : storeList (v :: vs) n = (f1 ++ f2, r :: rs, n2) := by
      simp only [storeList]
      rw [h1, h2]
    rw [heq]
    dsimp only
    obtain ⟨le1, bd1, nd1, fz1⟩ := ih1
    obtain ⟨le2, bd2, nd2, fz2⟩ := ih2
    refine ⟨by omega, ?_, ?_, ?_⟩
    · intro p hp
      rcases List.mem_append.mp hp with hp1 | hp1
      · have := bd1 p hp1; omega
      · have := bd2 p hp1; omega
    · rw [List.map_append]
      refine List.Nodup.append nd1 nd2 ?_
      intro x hx1 hx2
      obtain ⟨p, hp, hpx⟩ := List.mem_map.mp hx1
      obtain ⟨q, hq, hqx⟩ := List.mem_map.mp hx2
      have hb1 := bd1 p hp
      have hb2 := bd2 q hq
      omega
    · intro p hp
      rcases List.mem_append.mp hp with hp1 | hp1
      · exact fz1 p hp1
      · exact fz2 p hp1
termination_by structural l => l

theorem storeEntries_range : ∀ (e : List (String × Value)) (n : Nat),
    n ≤ (storeEntries e n).2.2 ∧
      (∀ p ∈ (storeEntries e n).1, n ≤ p.1 ∧ p.1 < (storeEntries e n).2.2) ∧
      (((storeEntries e n).1.map Prod.fst).Nodup) ∧
      (∀ p ∈ (storeEntries e n).1, p.2.frozen = false)
  | [], n =>
    ⟨Nat.le_refl n, by simp [storeEntries], by simp [storeEntries], by simp [storeEntries]⟩
  | (k, v) :: rest, n => by
    have ih1 := storeVal_range v n
    rcases h1 : storeVal v n with ⟨f1, r, n1⟩
    rw [h1] at ih1
    dsimp only at ih1
    have ih2 := storeEntries_range rest n1
    rcases h2 : storeEntries rest n1 with ⟨f2, fs, n2⟩
    rw [h2] at ih2
    dsimp only at ih2
    have heq : storeEntries ((k, v) :: rest) n = (f1 ++ f2, (k, r) :: fs, n2) := by
      simp only [storeEntries]
      rw [h1, h2]
    rw [heq]
    dsimp only
    obtain ⟨le1, bd1, nd1, fz1⟩ := ih1
    obtain ⟨le2, bd2, nd2, fz2⟩ := ih2
    refine ⟨by omega, ?_, ?_, ?_⟩
    · intro p hp
      rcases List.mem_append.mp hp with hp1 | hp1
      · have := bd1 p hp1; omega
      · have := bd2 p hp1; omega
    · rw [List.map_append]
      refine List.Nodup.append nd1 nd2 ?_
      intro x hx1 hx2
      obtain ⟨p, hp, hpx⟩ := List.mem_map.mp hx1
      obtain ⟨q, hq, hqx⟩ := List.mem_map.mp hx2
      have hb1 := bd1 p hp
      have hb2 := bd2 q hq
      omega
    · intro p hp
      rcases List.mem_append.mp hp with hp1 | hp1
      · exact fz1 p hp1
      · exact fz2 p hp1
termination_by structural l => l
end

mutual
theorem deepFreeze_storeVal : ∀ (v : Value) (n fuel : Nat) (h : Heap),
    vdepth v ≤ fuel → agreeOn (storeVal v n).1 h →
    deepFreezeRef fuel h (storeVal v n).2.1 =
      some (freezeAll ((storeVal v n).1.map Prod.fst) h)
  | .null, n, fuel, h, hf, _ => by
    cases fuel with
    | zero => simp [vdepth] at hf
    | succ f =>
      show deepFreezeRef (f + 1) h (Ref.prim .pnull) = some (freezeAll [] h)
      rw [deepFreezeRef, freezeAll_nil]
  | .bool b, n, fuel, h, hf, _ => by
    cases fuel with
    | zero => simp [vdepth] at hf
    | succ f =>
      show deepFreezeRef (f + 1) h (Ref.prim (.pbool b)) = some (freezeAll [] h)
      rw [deepFreezeRef, freezeAll_nil]
  | .num j, n, fuel, h, hf, _ => by
    cases fuel with
    | zero => simp [vdepth] at hf
    | succ f =>
      show deepFreezeRef (f + 1) h (Ref.prim (.pnum j)) = some (freezeAll [] h)
      rw [deepFreezeRef, freezeAll_nil]
  | .str s, n, fuel, h, hf, _ => by
    cases fuel with
    | zero => simp [vdepth] at hf
    | succ f =>
      show deepFreezeRef (f + 1) h (Ref.prim (.pstr s)) = some (freezeAll [] h)
      rw [deepFreezeRef, freezeAll_nil]
  | .arr xs, n, fuel, h, hf, ha => by
    cases fuel with
    | zero => simp [vdepth] at hf
    | succ f =>
      rcases h1 : storeList xs n with ⟨frag, refs, n2⟩
      have hf2 : vdepthList xs ≤ f := by
        have hv : vdepth (.arr xs) = vdepthList xs + 1 := by simp [vdepth]
        omega
      have heq : storeVal (.arr xs) n =
          (frag ++ [(n2, HNode.mk (HContent.arr refs) false)], Ref.addr n2, n2 + 1) := by
        simp only [storeVal]
        rw [h1]
      rw [heq] at ha ⊢
      dsimp only at ha ⊢
      obtain ⟨b, hb⟩ :=
        ha (n2, HNode.mk (HContent.arr refs) false) (List.mem_append.mpr (Or.inr (by simp)))
      dsimp only at hb
      have hagree : agreeOn (storeList xs n).1 (freezeAll [n2] h) := by
        rw [h1]
        exact agreeOn_freezeAll _ (agreeOn_of_append_left ha)
      have hrec := deepFreeze_storeList xs n f (freezeAll [n2] h) hf2 hagree
      rw [h1] at hrec
      dsimp only at hrec
      rw [deepFreezeRef, hb]
      show deepFreezeList f (freezeAt h n2) refs =
        some (freezeAll ((frag ++ [(n2, HNode.mk (HContent.arr refs) false)]).map Prod.fst) h)
      rw [freezeAt_eq, hrec, freezeAll_compose]
      congr 1
      apply freezeAll_congr
      intro x
      rw [List.map_append]
      simp [List.mem_append, or_comm]
  | .obj e, n, fuel, h, hf, ha => by
    cases fuel with
    | zero => simp [vdepth] at hf
    | succ f =>
      rcases h1 : storeEntries e n with ⟨frag, fs, n2⟩
      have hf2 : vdepthEntries e ≤ f := by
        have hv : vdepth (.obj e) = vdepthEntries e + 1 := by simp [vdepth]
        omega
      have heq : storeVal (.obj e) n =
          (frag ++ [(n2, HNode.mk (HContent.obj fs) false)], Ref.addr n2, n2 + 1) := by
        simp only [storeVal]
        rw [h1]
      rw [heq] at ha ⊢
      dsimp only at ha ⊢
      obtain ⟨b, hb⟩ :=
        ha (n2, HNode.mk (HContent.obj fs) false) (List.mem_append.mpr (Or.inr (by simp)))
      dsimp only at hb
      have hagree : agreeOn (storeEntries e n).1 (freezeAll [n2] h) := by
        rw [h1]
        exact agreeOn_freezeAll _ (agreeOn_of_append_left ha)
      have hrec := deepFreeze_storeEntries e n f (freezeAll [n2] h) hf2 hagree
      rw [h1] at hrec
      dsimp only at hrec
      rw [deepFreezeRef, hb]
      show deepFreezeList f (freezeAt h n2) (fs.map Prod.snd) =
        some (freezeAll ((frag ++ [(n2, HNode.mk (HContent.obj fs) false)]).map Prod.fst) h)
      rw [freezeAt_eq, hrec, freezeAll_compose]
      congr 1
      apply freezeAll_congr
      intro x
      rw [List.map_append]
      simp [List.mem_append, or_comm]
termination_by structural v => v

theorem deepFreeze_storeList : ∀ (xs : List Value) (n fuel : Nat) (h : Heap),
    vdepthList xs ≤ fuel → agreeOn (storeList xs n).1 h →
    deepFreezeList fuel h (storeList xs n).2.1 =
      some (freezeAll ((storeList xs n).1.map Prod.fst) h)
  | [], n, fuel, h, _, _ => by
    show deepFreezeList fuel h [] = some (freezeAll (([] : List (Nat × HNode)).map Prod.fst) h)
    rw [deepFreezeList]
    rw [show (([] : List (Nat × HNode)).map Prod.fst) = [] from rfl, freezeAll_nil]
  | v :: vs, n, fuel, h, hf, ha => by
    rcases h1 : storeVal v n with ⟨f1, r, n1⟩
    rcases h2 : storeList vs n1 with ⟨f2, rs, n2⟩
    have heq : storeList (v :: vs) n = (f1 ++ f2, r :: rs, n2) := by
      simp only [storeList]
      rw [h1, h2]
    rw [heq] at ha ⊢
    dsimp only at ha ⊢
    have hfv : vdepth v ≤ fuel := by
      have hv : vdepthList (v :: vs) = max (vdepth v) (vdepthList vs) := by simp [vdepthList]
      omega
    have hfvs : vdepthList vs ≤ fuel := by
      have hv : vdepthList (v :: vs) = max (vdepth v) (vdepthList vs) := by simp [vdepthList]
      omega
    have hagree1 : agreeOn (storeVal v n).1 h := by
      rw [h1]
      exact agreeOn_of_append_left ha
    have hr := deepFreeze_storeVal v n fuel h hfv hagree1
    rw [h1] at hr
    dsimp only at hr
    have hagree2 : agreeOn (storeList vs n1).1 (freezeAll (f1.map Prod.fst) h) := by
      rw [h2]
      exact agreeOn_freezeAll _ (agreeOn_of_append_right ha)
    have hvs := deepFreeze_storeList vs n1 fuel (freezeAll (f1.map Prod.fst) h) hfvs hagree2
    rw [h2] at hvs
    dsimp only at hvs
    rw [deepFreezeList, hr]
    show deepFreezeList fuel (freezeAll (f1.map Prod.fst) h) rs =
      some (freezeAll ((f1 ++ f2).map Prod.fst) h)
    rw [hvs, freezeAll_compose, List.map_append]
termination_by structural l => l

theorem deepFreeze_storeEntries : ∀ (e : List (String × Value)) (n fuel : Nat) (h : Heap),
    vdepthEntries e ≤ fuel → agreeOn (storeEntries e n).1 h →
    deepFreezeList fuel h ((storeEntries e n).2.1.map Prod.snd) =
      some (freezeAll ((storeEntries e n).1.map Prod.fst) h)
  | [], n, fuel, h, _, _ => by
    show deepFreezeList fuel h [] = some (freezeAll (([] : List (Nat × HNode)).map Prod.fst) h)
    rw [deepFreezeList]
    rw [show (([] : List (Nat × HNode)).map Prod.fst) = [] from rfl, freezeAll_nil]
  | (k, v) :: rest, n, fuel, h, hf, ha => by
    rcases h1 : storeVal v n with ⟨f1, r, n1⟩
    rcases h2 : storeEntries rest n1 with ⟨f2, fs, n2⟩
    have heq : storeEntries ((k, v) :: rest) n = (f1 ++ f2, (k, r) :: fs, n2) := by
      simp only [storeEntries]
      rw [h1, h2]
    rw [heq] at ha ⊢
    dsimp only at ha ⊢
    have hfv : vdepth v ≤ fuel := by
      have hv : vdepthEntries ((k, v) :: rest) = max (vdepth v) (vdepthEntries rest) := by
        simp [vdepthEntries]
      omega
    have hfvs : vdepthEntries rest ≤ fuel := by
      have hv : vdepthEntries ((k, v) :: rest) = max (vdepth v) (vdepthEntries rest) := by
        simp [vdepthEntries]
      omega
    have hagree1 : agreeOn (storeVal v n).1 h := by
      rw [h1]
      exact agreeOn_of_append_left ha
    have hr := deepFreeze_storeVal v n fuel h hfv hagree1
    rw [h1] at hr
    dsimp only at hr
    have hagree2 : agreeOn (storeEntries rest n1).1 (freezeAll (f1.map Prod.fst) h) := by
      rw [h2]
      exact agreeOn_freezeAll _ (agreeOn_of_append_right ha)
    have hvs := deepFreeze_storeEntries rest n1 fuel (freezeAll (f1.map Prod.fst) h) hfvs hagree2
    rw [h2] at hvs
    dsimp only at hvs
    rw [List.map_cons, deepFreezeList, hr]
    show deepFreezeList fuel (freezeAll (f1.map Prod.fst) h) (fs.map Prod.snd) =
      some (freezeAll ((f1 ++ f2).map Prod.fst) h)
    rw [hvs, freezeAll_compose, List.map_append]
termination_by structural l => l
end

mutual
theorem readRef_storeVal : ∀ (v : Value) (n fuel : Nat) (h : Heap),
    vdepth v ≤ fuel → agreeOn (storeVal v n).1 h →
    readRef fuel h (storeVal v n).2.1 = some v
  | .null, n, fuel, h, hf, _ => by
    cases fuel with
    | zero => simp [vdepth] at hf
    | succ f =>
      show readRef (f + 1) h (Ref.prim .pnull) = some .null
      rw [readRef]
  | .bool b, n, fuel, h, hf, _ => by
    cases fuel with
    | zero => simp [vdepth] at hf
    | succ f =>
      show readRef (f + 1) h (Ref.prim (.pbool b)) = some (.bool b)
      rw [readRef]
  | .num j, n, fuel, h, hf, _ => by
    cases fuel with
    | zero => simp [vdepth] at hf
    | succ f =>
      show readRef (f + 1) h (Ref.prim (.pnum j)) = some (.num j)
      rw [readRef]
  | .str s, n, fuel, h, hf, _ => by
    cases fuel with
    | zero => simp [vdepth] at hf
    | succ f =>
      show readRef (f + 1) h (Ref.prim (.pstr s)) = some (.str s)
      rw [readRef]
  | .arr xs, n, fuel, h, hf, ha => by
    cases fuel with
    | zero => simp [vdepth] at hf
    | succ f =>
      rcases h1 : storeList xs n with ⟨frag, refs, n2⟩
      have hf2 : vdepthList xs ≤ f := by
        have hv : vdepth (.arr xs) = vdepthList xs + 1 := by simp [vdepth]
        omega
      have heq : storeVal (.arr xs) n =
          (frag ++ [(n2, HNode.mk (HContent.arr refs) false)], Ref.addr n2, n2 + 1) := by
        simp only [storeVal]
        rw [h1]
      rw [heq] at ha ⊢
      dsimp only at ha ⊢
      obtain ⟨b, hb⟩ :=
        ha (n2, HNode.mk (HContent.arr refs) false) (List.mem_append.mpr (Or.inr (by simp)))
      dsimp only at hb
      have hagree : agreeOn (storeList xs n).1 h := by
        rw [h1]
        exact agreeOn_of_append_left ha
      have hrec := readRefs_storeList xs n f h hf2 hagree
      rw [h1] at hrec
      dsimp only at hrec
      rw [readRef, hb]
      show (readRefs f h refs).map Value.arr = some (.arr xs)
      rw [hrec]
      rfl
  | .obj e, n, fuel, h, hf, ha => by
    cases fuel with
    | zero => simp [vdepth] at hf
    | succ f =>
      rcases h1 : storeEntries e n with ⟨frag, fs, n2⟩
      have hf2 : vdepthEntries e ≤ f := by
        have hv : vdepth (.obj e) = vdepthEntries e + 1 := by simp [vdepth]
        omega
      have heq : storeVal (.obj e) n =
          (frag ++ [(n2, HNode.mk (HContent.obj fs) false)], Ref.addr n2, n2 + 1) := by
        simp only [storeVal]
        rw [h1]
      rw [heq] at ha ⊢
      dsimp only at ha ⊢
      obtain ⟨b, hb⟩ :=
        ha (n2, HNode.mk (HContent.obj fs) false) (List.mem_append.mpr (Or.inr (by simp)))
      dsimp only at hb
      have hagree : agreeOn (storeEntries e n).1 h := by
        rw [h1]
        exact agreeOn_of_append_left ha
      have hrec := readFields_storeEntries e n f h hf2 hagree
      rw [h1] at hrec
      dsimp only at hrec
      rw [readRef, hb]
      show (readFields f h fs).map Value.obj = some (.obj e)
      rw [hrec]
      rfl
termination_by structural v => v

theorem readRefs_storeList : ∀ (xs : List Value) (n fuel : Nat) (h : Heap),
    vdepthList xs ≤ fuel → agreeOn (storeList xs n).1 h →
    readRefs fuel h (storeList xs n).2.1 = some xs
  | [], n, fuel, h, _, _ => by
    show readRefs fuel h [] = some []
    rw [readRefs]
  | v :: vs, n, fuel, h, hf, ha => by
    rcases h1 : storeVal v n with ⟨f1, r, n1⟩
    rcases h2 : storeList vs n1 with ⟨f2, rs, n2⟩
    have heq : storeList (v :: vs) n = (f1 ++ f2, r :: rs, n2) := by
      simp only [storeList]
      rw [h1, h2]
    rw [heq] at ha ⊢
    dsimp only at ha ⊢
    have hfv : vdepth v ≤ fuel := by
      have hv : vdepthList (v :: vs) = max (vdepth v) (vdepthList vs) := by simp [vdepthList]
      omega
    have hfvs : vdepthList vs ≤ fuel := by
      have hv : vdepthList (v :: vs) = max (vdepth v) (vdepthList vs) := by simp [vdepthList]
      omega
    have hagree1 : agreeOn (storeVal v n).1 h := by
      rw [h1]
      exact agreeOn_of_append_left ha
    have hr := readRef_storeVal v n fuel h hfv hagree1
    rw [h1] at hr
    dsimp only at hr
    have hagree2 : agreeOn (storeList vs n1).1 h := by
      rw [h2]
      exact agreeOn_of_append_right ha
    have hvs := readRefs_storeList vs n1 fuel h hfvs hagree2
    rw [h2] at hvs
    dsimp only at hvs
    rw [readRefs, hr, hvs]
termination_by structural l => l

theorem readFields_storeEntries : ∀ (e : List (String × Value)) (n fuel : Nat) (h : Heap),
    vdepthEntries e ≤ fuel → agreeOn (storeEntries e n).1 h →
    readFields fuel h (storeEntries e n).2.1 = some e
  | [], n, fuel, h, _, _ => by
    show readFields fuel h [] = some []
    rw [readFields]
  | (k, v) :: rest, n, fuel, h, hf, ha => by
    rcases h1 : storeVal v n with ⟨f1, r, n1⟩
    rcases h2 : storeEntries rest n1 with ⟨f2, fs, n2⟩
    have heq : storeEntries ((k, v) :: rest) n = (f1 ++ f2, (k, r) :: fs, n2) := by
      simp only [storeEntries]
      rw [h1, h2]
    rw [heq] at ha ⊢
    dsimp only at ha ⊢
    have hfv : vdepth v ≤ fuel := by
      have hv : vdepthEntries ((k, v) :: rest) = max (vdepth v) (vdepthEntries rest) := by
        simp [vdepthEntries]
      omega
    have hfvs : vdepthEntries rest ≤ fuel := by
      have hv : vdepthEntries ((k, v) :: rest) = max (vdepth v) (vdepthEntries rest) := by
        simp [vdepthEntries]
      omega
    have hagree1 : agreeOn (storeVal v n).1 h := by
      rw [h1]
      exact agreeOn_of_append_left ha
    have hr := readRef_storeVal v n fuel h hfv hagree1
    rw [h1] at hr
    dsimp only at hr
    have hagree2 : agreeOn (storeEntries rest n1).1 h := by
      rw [h2]
      exact agreeOn_of_append_right ha
    have hvs := readFields_storeEntries rest n1 fuel h hfvs hagree2
    rw [h2] at hvs
    dsimp only at hvs
    rw [readFields, hr, hvs]
termination_by structural l => l
end

theorem agreeOn_heapOfFrag_self {frag : List (Nat × HNode)}
    (hnd : (frag.map Prod.fst).Nodup) : agreeOn frag (heapOfFrag frag) :=
  fun p hp => ⟨p.2.frozen, by rw [heapOfFrag_mem hnd hp]⟩

/-- C6: store a value graph as the JS heap it denotes, run deepFreeze on
it; the freeze completes, every node of the resulting heap is frozen, every
attempted mutation of any container at any address (that is, through any
reference whatsoever, old or new) leaves the heap unchanged, and the value
still reads back intact. -/
theorem deepFreeze_immutable (v : Value) :
    ∃ (fuel : Nat) (h2 : Heap),
      deepFreezeRef fuel (heapOfFrag (storeVal v 0).1) (storeVal v 0).2.1 = some h2 ∧
      (∀ a nd, h2 a = some nd → nd.frozen = true) ∧
      (∀ a mu, tryWrite h2 a mu = h2) ∧
      readRef fuel h2 (storeVal v 0).2.1 = some v := by
  have hrange := storeVal_range v 0
  have hagree0 : agreeOn (storeVal v 0).1 (heapOfFrag (storeVal v 0).1) :=
    agreeOn_heapOfFrag_self hrange.2.2.1
  refine ⟨vdepth v,
    freezeAll ((storeVal v 0).1.map Prod.fst) (heapOfFrag (storeVal v 0).1), ?_, ?_, ?_, ?_⟩
  case _ => exact deepFreeze_storeVal v 0 (vdepth v) _ (Nat.le_refl _) hagree0
  case _ =>
    intro a nd hnd
    by_cases hm : a ∈ (storeVal v 0).1.map Prod.fst
    · simp only [freezeAll, if_pos hm] at hnd
      rcases hh : heapOfFrag (storeVal v 0).1 a with _ | nd0
      · rw [hh] at hnd
        exact absurd hnd (by simp)
      · rw [hh] at hnd
        have : HNode.mk nd0.content true = nd := by
          have := hnd
          simpa using this
        rw [← this]
    · simp only [freezeAll, if_neg hm] at hnd
      rw [heapOfFrag_not_mem hm] at hnd
      exact absurd hnd (by simp)
  case _ =>
    have hfz : ∀ a nd,
        freezeAll ((storeVal v 0).1.map Prod.fst) (heapOfFrag (storeVal v 0).1) a = some nd →
          nd.frozen = true := by
      intro a nd hnd
      by_cases hm : a ∈ (storeVal v 0).1.map Prod.fst
      · simp only [freezeAll, if_pos hm] at hnd
        rcases hh : heapOfFrag (storeVal v 0).1 a with _ | nd0
        · rw [hh] at hnd
          exact absurd hnd (by simp)
        · rw [hh] at hnd
          have : HNode.mk nd0.content true = nd := by
            have := hnd
            simpa using this
          rw [← this]
      · simp only [freezeAll, if_neg hm] at hnd
        rw [heapOfFrag_not_mem hm] at hnd
        exact absurd hnd (by simp)
    intro a mu
    unfold tryWrite
    rcases hh : freezeAll ((storeVal v 0).1.map Prod.fst) (heapOfFrag (storeVal v 0).1) a
      with _ | nd
    · rfl
    · simp [hfz a nd hh]
  case _ =>
    exact readRef_storeVal v 0 (vdepth v) _ (Nat.le_refl _) (agreeOn_freezeAll _ hagree0)

theorem freezeAll_none {as : List Nat} {h : Heap} {a : Nat} (hn : h a = none) :
    freezeAll as h a = none := by
  unfold freezeAll
  by_cases hm : a ∈ as <;> simp [hm, hn]

theorem heapOfFrag_some_pair {frag : List (Nat × HNode)} {a : Nat} {nd : HNode}
    (h : heapOfFrag frag a = some nd) : ∃ p ∈ frag, p.1 = a ∧ p.2 = nd := by
  unfold heapOfFrag at h
  rcases hf : frag.find? (fun p => decide (p.1 = a)) with _ | p
  · rw [hf] at h
    exact absurd h (by simp)
  · rw [hf] at h
    have hmem := List.mem_of_find?_eq_some hf
    have hp := List.find?_some hf
    simp only [decide_eq_true_eq] at hp
    have h2 : some p.2 = some nd := h
    exact ⟨p, hmem, hp, Option.some.inj h2⟩

theorem agreeOn_overlay_self {frag : List (Nat × HNode)} (h : Heap)
    (hnd : (frag.map Prod.fst).Nodup) : agreeOn frag (overlay h frag) := by
  intro p hp
  refine ⟨p.2.frozen, ?_⟩
  unfold overlay
  rw [heapOfFrag_mem hnd hp]

mutual
theorem deepClone_storeVal : ∀ (v : Value) (n fuel fresh : Nat) (h : Heap),
    vdepth v ≤ fuel → agreeOn (storeVal v n).1 h → (storeVal v n).2.2 ≤ fresh →
    deepCloneRef fuel h (storeVal v n).2.1 fresh =
      some (overlay h (storeVal v fresh).1, (storeVal v fresh).2.1, (storeVal v fresh).2.2)
  | .null, n, fuel, fresh, h, hf, _, _ => by
    cases fuel with
    | zero => simp [vdepth] at hf
    | succ f =>
      show deepCloneRef (f + 1) h (Ref.prim .pnull) fresh =
        some (overlay h [], Ref.prim .pnull, fresh)
      rw [deepCloneRef, overlay_nil]
  | .bool b, n, fuel, fresh, h, hf, _, _ => by
    cases fuel with
    | zero => simp [vdepth] at hf
    | succ f =>
      show deepCloneRef (f + 1) h (Ref.prim (.pbool b)) fresh =
        some (overlay h [], Ref.prim (.pbool b), fresh)
      rw [deepCloneRef, overlay_nil]
  | .num j, n, fuel, fresh, h, hf, _, _ => by
    cases fuel with
    | zero => simp [vdepth] at hf
    | succ f =>
      show deepCloneRef (f + 1) h (Ref.prim (.pnum j)) fresh =
        some (overlay h [], Ref.prim (.pnum j), fresh)
      rw [deepCloneRef, overlay_nil]
  | .str s, n, fuel, fresh, h, hf, _, _ => by
    cases fuel with
    | zero => simp [vdepth] at hf
    | succ f =>
      show deepCloneRef (f + 1) h (Ref.prim (.pstr s)) fresh =
        some (overlay h [], Ref.prim (.pstr s), fresh)
      rw [deepCloneRef, overlay_nil]
  | .arr xs, n, fuel, fresh, h, hf, ha, hfr => by
    cases fuel with
    | zero => simp [vdepth] at hf
    | succ f =>
      rcases h1 : storeList xs n with ⟨f1, refs, n2⟩
      rcases h2 : storeList xs fresh with ⟨f1N, refsN, n2N⟩
      have hf2 : vdepthList xs ≤ f := by
        have hv : vdepth (.arr xs) = vdepthList xs + 1 := by simp [vdepth]
        omega
      have heqO : storeVal (.arr xs) n =
          (f1 ++ [(n2, HNode.mk (HContent.arr refs) false)], Ref.addr n2, n2 + 1) := by
        simp only [storeVal]
        rw [h1]
      have heqN : storeVal (.arr xs) fresh =
          (f1N ++ [(n2N, HNode.mk (HContent.arr refsN) false)], Ref.addr n2N, n2N + 1) := by
        simp only [storeVal]
        rw [h2]
      rw [heqO] at ha hfr ⊢
      rw [heqN]
      dsimp only at ha hfr ⊢
      obtain ⟨b, hb⟩ :=
        ha (n2, HNode.mk (HContent.arr refs) false) (List.mem_append.mpr (Or.inr (by simp)))
      dsimp only at hb
      have hrN := storeList_range xs fresh
      rw [h2] at hrN
      dsimp only at hrN
      have hagree1 : agreeOn (storeList xs n).1 h := by
        rw [h1]
        exact agreeOn_of_append_left ha
      have hle1 : (storeList xs n).2.2 ≤ fresh := by
        rw [h1]
        dsimp only
        omega
      have hrec := deepClone_storeList xs n f fresh h hf2 hagree1 hle1
      rw [h1, h2] at hrec
      dsimp only at hrec
      rw [deepCloneRef, hb]
      show (match deepCloneList f h refs fresh with
          | none => none
          | some (h2, rs2, m) =>
            some (hUpdate h2 m (HNode.mk (HContent.arr rs2) false), Ref.addr m, m + 1)) =
        some (overlay h (f1N ++ [(n2N, HNode.mk (HContent.arr refsN) false)]),
          Ref.addr n2N, n2N + 1)
      rw [hrec]
      dsimp only
      rw [hUpdate_overlay_snoc]
      intro hmem
      obtain ⟨p, hp, hpx⟩ := List.mem_map.mp hmem
      have := hrN.2.1 p hp
      omega
  | .obj e, n, fuel, fresh, h, hf, ha, hfr => by
    cases fuel with
    | zero => simp [vdepth] at hf
    | succ f =>
      rcases h1 : storeEntries e n with ⟨f1, fs, n2⟩
      rcases h2 : storeEntries e fresh with ⟨f1N, fsN, n2N⟩
      have hf2 : vdepthEntries e ≤ f := by
        have hv : vdepth (.obj e) = vdepthEntries e + 1 := by simp [vdepth]
        omega
      have heqO : storeVal (.obj e) n =
          (f1 ++ [(n2, HNode.mk (HContent.obj fs) false)], Ref.addr n2, n2 + 1) := by
        simp only [storeVal]
        rw [h1]
      have heqN : storeVal (.obj e) fresh =
          (f1N ++ [(n2N, HNode.mk (HContent.obj fsN) false)], Ref.addr n2N, n2N + 1) := by
        simp only [storeVal]
        rw [h2]
      rw [heqO] at ha hfr ⊢
      rw [heqN]
      dsimp only at ha hfr ⊢
      obtain ⟨b, hb⟩ :=
        ha (n2, HNode.mk (HContent.obj fs) false) (List.mem_append.mpr (Or.inr (by simp)))
      dsimp only at hb
      have hrN := storeEntries_range e fresh
      rw [h2] at hrN
      dsimp only at hrN
      have hagree1 : agreeOn (storeEntries e n).1 h := by
        rw [h1]
        exact agreeOn_of_append_left ha
      have hle1 : (storeEntries e n).2.2 ≤ fresh := by
        rw [h1]
        dsimp only
        omega
      have hrec := deepClone_storeEntries e n f fresh h hf2 hagree1 hle1
      rw [h1, h2] at hrec
      dsimp only at hrec
      rw [deepCloneRef, hb]
      show (match deepCloneFields f h fs fresh with
          | none => none
          | some (h2, fs2, m) =>
            some (hUpdate h2 m (HNode.mk (HContent.obj fs2) false), Ref.addr m, m + 1)) =
        some (overlay h (f1N ++ [(n2N, HNode.mk (HContent.obj fsN) false)]),
          Ref.addr n2N, n2N + 1)
      rw [hrec]
      dsimp only
      rw [hUpdate_overlay_snoc]
      intro hmem
      obtain ⟨p, hp, hpx⟩ := List.mem_map.mp hmem
      have := hrN.2.1 p hp
      omega
termination_by structural v => v

theorem deepClone_storeList : ∀ (xs : List Value) (n fuel fresh : Nat) (h : Heap),
    vdepthList xs ≤ fuel → agreeOn (storeList xs n).1 h → (storeList xs n).2.2 ≤ fresh →
    deepCloneList fuel h (storeList xs n).2.1 fresh =
      some (overlay h (storeList xs fresh).1, (storeList xs fresh).2.1, (storeList xs fresh).2.2)
  | [], n, fuel, fresh, h, _, _, _ => by
    show deepCloneList fuel h [] fresh = some (overlay h [], [], fresh)
    rw [deepCloneList, overlay_nil]
  | v :: vs, n, fuel, fresh, h, hf, ha, hfr => by
    rcases h1 : storeVal v n with ⟨f1, r, n1⟩
    rcases h2 : storeList vs n1 with ⟨f2, rs, n2⟩
    rcases h3 : storeVal v fresh with ⟨f1N, rN, n1N⟩
    rcases h4 : storeList vs n1N with ⟨f2N, rsN, n2N⟩
    have heqO : storeList (v :: vs) n = (f1 ++ f2, r :: rs, n2) := by
      simp only [storeList]
      rw [h1, h2]
    have heqN : storeList (v :: vs) fresh = (f1N ++ f2N, rN :: rsN, n2N) := by
      simp only [storeList]
      rw [h3, h4]
    rw [heqO] at ha hfr ⊢
    rw [heqN]
    dsimp only at ha hfr ⊢
    have hfv : vdepth v ≤ fuel := by
      have hv : vdepthList (v :: vs) = max (vdepth v) (vdepthList vs) := by simp [vdepthList]
      omega
    have hfvs : vdepthList vs ≤ fuel := by
      have hv : vdepthList (v :: vs) = max (vdepth v) (vdepthList vs) := by simp [vdepthList]
      omega
    have hr2 := storeList_range vs n1
    rw [h2] at hr2
    dsimp only at hr2
    have hr1N := storeVal_range v fresh
    rw [h3] at hr1N
    dsimp only at hr1N
    have hr2N := storeList_range vs n1N
    rw [h4] at hr2N
    dsimp only at hr2N
    have hagree1 : agreeOn (storeVal v n).1 h := by
      rw [h1]
      exact agreeOn_of_append_left ha
    have hle1 : (storeVal v n).2.2 ≤ fresh := by
      rw [h1]
      dsimp only
      omega
    have hr := deepClone_storeVal v n fuel fresh h hfv hagree1 hle1
    rw [h1, h3] at hr
    dsimp only at hr
    have hagree2 : agreeOn (storeList vs n1).1 (overlay h f1N) := by
      rw [h2]
      dsimp only
      refine agreeOn_overlay ?_ (agreeOn_of_append_right ha)
      intro p hp hmem
      obtain ⟨q, hq, hqx⟩ := List.mem_map.mp hmem
      have hb1 := hr2.2.1 p hp
      have hb2 := hr1N.2.1 q hq
      omega
    have hle2 : (storeList vs n1).2.2 ≤ n1N := by
      rw [h2]
      dsimp only
      omega
    have hvs := deepClone_storeList vs n1 fuel n1N (overlay h f1N) hfvs hagree2 hle2
    rw [h2, h4] at hvs
    dsimp only at hvs
    rw [deepCloneList, hr]
    show (match deepCloneList fuel (overlay h f1N) rs n1N with
        | none => none
        | some (h2, rs2, m) => some (h2, rN :: rs2, m)) =
      some (overlay h (f1N ++ f2N), rN :: rsN, n2N)
    rw [hvs]
    dsimp only
    rw [overlay_overlay]
    intro x hx1 hx2
    obtain ⟨p, hp, hpx⟩ := List.mem_map.mp hx1
    obtain ⟨q, hq, hqx⟩ := List.mem_map.mp hx2
    have hb1 := hr1N.2.1 p hp
    have hb2 := hr2N.2.1 q hq
    omega
termination_by structural l => l

theorem deepClone_storeEntries : ∀ (e : List (String × Value)) (n fuel fresh : Nat) (h : Heap),
    vdepthEntries e ≤ fuel → agreeOn (storeEntries e n).1 h → (storeEntries e n).2.2 ≤ fresh →
    deepCloneFields fuel h (storeEntries e n).2.1 fresh =
      some (overlay h (storeEntries e fresh).1, (storeEntries e fresh).2.1,
        (storeEntries e fresh).2.2)
  | [], n, fuel, fresh, h, _, _, _ => by
    show deepCloneFields fuel h [] fresh = some (overlay h [], [], fresh)
    rw [deepCloneFields, overlay_nil]
  | (k, v) :: rest, n, fuel, fresh, h, hf, ha, hfr => by
    rcases h1 : storeVal v n with ⟨f1, r, n1⟩
    rcases h2 : storeEntries rest n1 with ⟨f2, fs, n2⟩
    rcases h3 : storeVal v fresh with ⟨f1N, rN, n1N⟩
    rcases h4 : storeEntries rest n1N with ⟨f2N, fsN, n2N⟩
    have heqO : storeEntries ((k, v) :: rest) n = (f1 ++ f2, (k, r) :: fs, n2) := by
      simp only [storeEntries]
      rw [h1, h2]
    have heqN : storeEntries ((k, v) :: rest) fresh = (f1N ++ f2N, (k, rN) :: fsN, n2N) := by
      simp only [storeEntries]
      rw [h3, h4]
    rw [heqO] at ha hfr ⊢
    rw [heqN]
    dsimp only at ha hfr ⊢
    have hfv : vdepth v ≤ fuel := by
      have hv : vdepthEntries ((k, v) :: rest) = max (vdepth v) (vdepthEntries rest) := by
        simp [vdepthEntries]
      omega
    have hfvs : vdepthEntries rest ≤ fuel := by
      have hv : vdepthEntries ((k, v) :: rest) = max (vdepth v) (vdepthEntries rest) := by
        simp [vdepthEntries]
      omega
    have hr2 := storeEntries_range rest n1
    rw [h2] at hr2
    dsimp only at hr2
    have hr1N := storeVal_range v fresh
    rw [h3] at hr1N
    dsimp only at hr1N
    have hr2N := storeEntries_range rest n1N
    rw [h4] at hr2N
    dsimp only at hr2N
    have hagree1 : agreeOn (storeVal v n).1 h := by
      rw [h1]
      exact agreeOn_of_append_left ha
    have hle1 : (storeVal v n).2.2 ≤ fresh := by
      rw [h1]
      dsimp only
      omega
    have hr := deepClone_storeVal v n fuel fresh h hfv hagree1 hle1
    rw [h1, h3] at hr
    dsimp only at hr
    have hagree2 : agreeOn (storeEntries rest n1).1 (overlay h f1N) := by
      rw [h2]
      dsimp only
      refine agreeOn_overlay ?_ (agreeOn_of_append_right ha)
      intro p hp hmem
      obtain ⟨q, hq, hqx⟩ := List.mem_map.mp hmem
      have hb1 := hr2.2.1 p hp
      have hb2 := hr1N.2.1 q hq
      omega
    have hle2 : (storeEntries rest n1).2.2 ≤ n1N := by
      rw [h2]
      dsimp only
      omega
    have hvs := deepClone_storeEntries rest n1 fuel n1N (overlay h f1N) hfvs hagree2 hle2
    rw [h2, h4] at hvs
    dsimp only at hvs
    rw [deepCloneFields, hr]
    show (match deepCloneFields fuel (overlay h f1N) fs n1N with
        | none => none
        | some (h2, fs2, m) => some (h2, (k, rN) :: fs2, m)) =
      some (overlay h (f1N ++ f2N), (k, rN) :: fsN, n2N)
    rw [hvs]
    dsimp only
    rw [overlay_overlay]
    intro x hx1 hx2
    obtain ⟨p, hp, hpx⟩ := List.mem_map.mp hx1
    obtain ⟨q, hq, hqx⟩ := List.mem_map.mp hx2
    have hb1 := hr1N.2.1 p hp
    have hb2 := hr2N.2.1 q hq
    omega
termination_by structural l => l
end

/-- C8: store a value graph, deepFreeze it, then deepClone it.  The clone
completes and yields a value that reads back structurally equal to the
original; the original also still reads back intact; every node the clone
allocated is mutable (frozen flag clear); and any mutation at any clone
address leaves the original value's readback unchanged: the clone is fully
independent of the frozen original. -/
theorem deepClone_of_frozen_independent (v : Value) :
    ∃ (fuel : Nat) (h2 : Heap) (r2 : Ref) (n3 : Nat),
      deepCloneRef fuel
          (freezeAll ((storeVal v 0).1.map Prod.fst) (heapOfFrag (storeVal v 0).1))
          (storeVal v 0).2.1 (storeVal v 0).2.2 = some (h2, r2, n3) ∧
      readRef fuel h2 r2 = some v ∧
      readRef fuel h2 (storeVal v 0).2.1 = some v ∧
      (∀ a nd, (storeVal v 0).2.2 ≤ a → h2 a = some nd → nd.frozen = false) ∧
      (∀ a, (storeVal v 0).2.2 ≤ a → ∀ mu,
        readRef fuel (tryWrite h2 a mu) (storeVal v 0).2.1 = some v) := by
  have hrange := storeVal_range v 0
  have hrangeN := storeVal_range v (storeVal v 0).2.2
  have hagree0 : agreeOn (storeVal v 0).1 (heapOfFrag (storeVal v 0).1) :=
    agreeOn_heapOfFrag_self hrange.2.2.1
  have hagree1 : agreeOn (storeVal v 0).1
      (freezeAll ((storeVal v 0).1.map Prod.fst) (heapOfFrag (storeVal v 0).1)) :=
    agreeOn_freezeAll _ hagree0
  have hdisData : ∀ p ∈ (storeVal v 0).1,
      p.1 ∉ ((storeVal v (storeVal v 0).2.2).1).map Prod.fst := by
    intro p hp hmem
    obtain ⟨q, hq, hqx⟩ := List.mem_map.mp hmem
    have hb1 := hrange.2.1 p hp
    have hb2 := hrangeN.2.1 q hq
    omega
  have hclone := deepClone_storeVal v 0 (vdepth v) (storeVal v 0).2.2
    (freezeAll ((storeVal v 0).1.map Prod.fst) (heapOfFrag (storeVal v 0).1))
    (Nat.le_refl _) hagree1 (Nat.le_refl _)
  refine ⟨vdepth v, _, _, _, hclone, ?_, ?_, ?_, ?_⟩
  · exact readRef_storeVal v (storeVal v 0).2.2 (vdepth v) _ (Nat.le_refl _)
      (agreeOn_overlay_self _ hrangeN.2.2.1)
  · exact readRef_storeVal v 0 (vdepth v) _ (Nat.le_refl _)
      (agreeOn_overlay hdisData hagree1)
  · intro a nd hge hnd
    unfold overlay at hnd
    rcases hh : heapOfFrag (storeVal v (storeVal v 0).2.2).1 a with _ | nd0
    · rw [hh] at hnd
      have hnone : heapOfFrag (storeVal v 0).1 a = none := by
        apply heapOfFrag_not_mem
        intro hmem
        obtain ⟨q, hq, hqx⟩ := List.mem_map.mp hmem
        have hb1 := hrange.2.1 q hq
        omega
      rw [freezeAll_none hnone] at hnd
      exact absurd hnd (by simp)
    · rw [hh] at hnd
      obtain ⟨p, hp, hpa, hpnd⟩ := heapOfFrag_some_pair hh
      have hfz := hrangeN.2.2.2 p hp
      have hnd2 : nd0 = nd := Option.some.inj hnd
      rw [← hnd2, ← hpnd]
      exact hfz
  · intro a hge mu
    apply readRef_storeVal v 0 (vdepth v) _ (Nat.le_refl _)
    apply agreeOn_tryWrite
    · intro p hp hpa
      have hb1 := hrange.2.1 p hp
      omega
    · exact agreeOn_overlay hdisData hagree1

/-! Canonical-form injectivity (the iff of §3/§8) is proved by exhibiting a
verified decoder: parsing the canonical string of a supported value
reconstructs the value's key-sorted normal form, so equal canonical strings
force equal normal forms.  The parser below is a verification artifact; it
only needs to be correct on the strings canonicalize emits. -/

/-- Decimal digit test on characters. -/
def isDigitChar (c : Char) : Bool := decide (48 ≤ c.toNat ∧ c.toNat ≤ 57)

/-- Value of a decimal digit character. -/
def dval (c : Char) : Nat := c.toNat - 48

/-- Value of a lowercase hex digit character. -/
def hexVal (c : Char) : Nat := if c.toNat ≤ 57 then c.toNat - 48 else c.toNat - 87

/-- The character list does not begin with a decimal digit (so a greedy
number parse stops exactly at its front). -/
def noDigitStart (cs : List Char) : Prop :=
  ∀ c, cs.head? = some c → isDigitChar c = false

/-- Inverse of the named JSON escapes emitted by escapeChar. -/
def unescapeChar (e : Char) : Option Char :=
  if e = '"' then some '"'
  else if e = '\\' then some '\\'
  else if e = 'b' then some '\x08'
  else if e = 't' then some '\t'
  else if e = 'n' then some '\n'
  else if e = 'f' then some '\x0c'
  else if e = 'r' then some '\r'
  else none

/-- String-body parser: consumes escaped characters up to the closing
quote, returning the decoded characters and the remaining input.  Fuel is
decremented once per step; the input length always suffices. -/
def pStrChars : Nat → List Char → Option (List Char × List Char)
  | 0, _ => none
  | _ + 1, [] => none
  | f + 1, c :: r =>
    if c = '"' then some ([], r)
    else if c = '\\' then
      match r with
      | [] => none
      | e :: r2 =>
        if e = 'u' then
          match r2 with
          | d1 :: d2 :: d3 :: d4 :: r3 =>
            match pStrChars f r3 with
            | some (cs, rest) =>
              some (Char.ofNat
                (4096 * hexVal d1 + 256 * hexVal d2 + 16 * hexVal d3 + hexVal d4) :: cs, rest)
            | none => none
          | _ => none
        else
          match unescapeChar e with
          | some c2 =>
            match pStrChars f r2 with
            | some (cs, rest) => some (c2 :: cs, rest)
            | none => none
          | none => none
    else
      match pStrChars f r with
      | some (cs, rest) => some (c :: cs, rest)
      | none => none
termination_by structural f _ => f

/-- Greedy digit-run parser with accumulator. -/
def pDigits : List Char → Nat → Nat × List Char
  | [], acc => (acc, [])
  | c :: cs, acc => if isDigitChar c then pDigits cs (acc * 10 + dval c) else (acc, c :: cs)

/-- Strip an expected literal prefix. -/
def stripPre : List Char → List Char → Option (List Char)
  | [], cs => some cs
  | l :: ls, c :: cs => if c = l then stripPre ls cs else none
  | _ :: _, [] => none

/-- One step of the value parser, parameterized over the element- and
field-parsers used for containers.  Dispatch is on the first character,
which canonical output determines uniquely. -/
def pValAux (pe : List Char → Option (List Value × List Char))
    (pf : List Char → Option (List (String × Value) × List Char)) :
    List Char → Option (Value × List Char)
  | [] => none
  | c :: cs =>
    if c = 'n' then
      match stripPre ['u', 'l', 'l'] cs with
      | some r => some (.null, r)
      | none => none
    else if c = 't' then
      match stripPre ['r', 'u', 'e'] cs with
      | some r => some (.bool true, r)
      | none => none
    else if c = 'f' then
      match stripPre ['a', 'l', 's', 'e'] cs with
      | some r => some (.bool false, r)
      | none => none
    else if c = '"' then
      match pStrChars cs.length cs with
      | some (scs, r) => some (.str (String.mk scs), r)
      | none => none
    else if c = '[' then
      match cs with
      | [] => none
      | c2 :: cs2 =>
        if c2 = ']' then some (.arr [], cs2)
        else
          match pe (c2 :: cs2) with
          | some (vs, r) => some (.arr vs, r)
          | none => none
    else if c = '\x7b' then
      match cs with
      | [] => none
      | c2 :: cs2 =>
        if c2 = '\x7d' then some (.obj [], cs2)
        else
          match pf (c2 :: cs2) with
          | some (fs, r) => some (.obj fs, r)
          | none => none
    else if c = '-' then
      match cs with
      | [] => none
      | d :: r =>
        if isDigitChar d then
          match pDigits r (dval d) with
          | (m, r2) => some (.num (.int (-(m : Int))), r2)
        else none
    else if isDigitChar c then
      match pDigits cs (dval c) with
      | (m, r2) => some (.num (.int (m : Int)), r2)
    else none

/-- One step of the array-element parser: a value, then a comma to continue
or a closing bracket to finish. -/
def pElemsAux (pv : List Char → Option (Value × List Char))
    (pe : List Char → Option (List Value × List Char))
    (cs : List Char) : Option (List Value × List Char) :=
  match pv cs with
  | none => none
  | some (v, r) =>
    match r with
    | [] => none
    | c2 :: r2 =>
      if c2 = ',' then
        match pe r2 with
        | some (vs, r3) => some (v :: vs, r3)
        | none => none
      else if c2 = ']' then some ([v], r2)
      else none

/-- One step of the object-field parser: quoted key, colon, value, then a
comma to continue or a closing brace to finish. -/
def pFieldsAux (pv : List Char → Option (Value × List Char))
    (pf : List Char → Option (List (String × Value) × List Char)) :
    List Char → Option (List (String × Value) × List Char)
  | [] => none
  | c :: r =>
    if c = '"' then
      match pStrChars r.length r with
      | none => none
      | some (kcs, r1) =>
        match r1 with
        | [] => none
        | c1 :: r2 =>
          if c1 = ':' then
            match pv r2 with
            | none => none
            | some (v, r3) =>
              match r3 with
              | [] => none
              | c3 :: r4 =>
                if c3 = ',' then
                  match pf r4 with
                  | some (fs, r5) => some ((String.mk kcs, v) :: fs, r5)
                  | none => none
                else if c3 = '\x7d' then some ([(String.mk kcs, v)], r4)
                else none
          else none
    else none

mutual
/-- Value parser over canonical output, with fuel bounding the recursion. -/
def pVal : Nat → List Char → Option (Value × List Char)
  | 0, _ => none
  | f + 1, cs => pValAux (pElems f) (pFields f) cs
termination_by structural f _ => f

/-- Array elements, fuel-bounded. -/
def pElems : Nat → List Char → Option (List Value × List Char)
  | 0, _ => none
  | f + 1, cs => pElemsAux (pVal f) (pElems f) cs
termination_by structural f _ => f

/-- Object fields, fuel-bounded. -/
def pFields : Nat → List Char → Option (List (String × Value) × List Char)
  | 0, _ => none
  | f + 1, cs => pFieldsAux (pVal f) (pFields f) cs
termination_by structural f _ => f
end

mutual
/-- Key-sorted normal form: mapping entries sorted by the key order the
encoder uses, recursively.  Two supported values are structurally equal up
to mapping-entry insertion order exactly when their normal forms are
equal. -/
def normV : Value → Value
  | .null => .null
  | .bool b => .bool b
  | .num j => .num j
  | .str s => .str s
  | .arr xs => .arr (normL xs)
  | .obj e => .obj (sortEntries (normE e))
termination_by structural v => v

def normL : List Value → List Value
  | [] => []
  | v :: vs => normV v :: normL vs
termination_by structural l => l

def normE : List (String × Value) → List (String × Value)
  | [] => []
  | (k, v) :: rest => (k, normV v) :: normE rest
termination_by structural l => l
end

mutual
/-- Supported (well-formed) values, §3: every number is finite (an exact
integral double here) and every mapping's keys are duplicate-free, as JS
objects guarantee. -/
def wfV : Value → Bool
  | .null => true
  | .bool _ => true
  | .num (.int _) => true
  | .num .nan => false
  | .num .posInf => false
  | .num .negInf => false
  | .str _ => true
  | .arr xs => wfL xs
  | .obj e => decide ((e.map Prod.fst).Nodup) && wfE e
termination_by structural v => v

def wfL : List Value → Bool
  | [] => true
  | v :: vs => wfV v && wfL vs
termination_by structural l => l

def wfE : List (String × Value) → Bool
  | [] => true
  | (_, v) :: rest => wfV v && wfE rest
termination_by structural l => l
end

mutual
/-- Fuel sufficient to parse the canonical form of a value. -/
def pfuelV : Value → Nat
  | .null => 1
  | .bool _ => 1
  | .num _ => 1
  | .str _ => 1
  | .arr xs => pfuelL xs + xs.length + 1
  | .obj e => pfuelE e + e.length + 1
termination_by structural v => v

def pfuelL : List Value → Nat
  | [] => 0
  | v :: vs => max (pfuelV v) (pfuelL vs)
termination_by structural l => l

def pfuelE : List (String × Value) → Nat
  | [] => 0
  | (_, v) :: rest => max (pfuelV v) (pfuelE rest)
termination_by structural l => l
end

theorem normL_eq_map : ∀ xs : List Value, normL xs = xs.map normV
  | [] => rfl
  | v :: vs => by rw [normL, List.map_cons, normL_eq_map vs]

theorem normE_eq_map :
    ∀ e : List (String × Value), normE e = e.map (fun p => (p.1, normV p.2))
  | [] => rfl
  | (k, v) :: rest => by rw [normE, List.map_cons, normE_eq_map rest]

theorem wfL_mem : ∀ {xs : List Value}, wfL xs = true → ∀ {x}, x ∈ xs → wfV x = true
  | [], _, _, hx => absurd hx (List.not_mem_nil _)
  | v :: vs, h, x, hx => by
    rw [wfL, Bool.and_eq_true] at h
    rcases List.mem_cons.mp hx with rfl | hx2
    · exact h.1
    · exact wfL_mem h.2 hx2

theorem wfE_mem : ∀ {e : List (String × Value)}, wfE e = true → ∀ {p}, p ∈ e → wfV p.2 = true
  | [], _, _, hp => absurd hp (List.not_mem_nil _)
  | (k, v) :: rest, h, p, hp => by
    rw [wfE, Bool.and_eq_true] at h
    rcases List.mem_cons.mp hp with rfl | hp2
    · exact h.1
    · exact wfE_mem h.2 hp2

theorem pfuelL_mem : ∀ {xs : List Value} {x}, x ∈ xs → pfuelV x ≤ pfuelL xs
  | [], _, hx => absurd hx (List.not_mem_nil _)
  | v :: vs, x, hx => by
    rw [pfuelL]
    rcases List.mem_cons.mp hx with rfl | hx2
    · omega
    · have := pfuelL_mem hx2
      omega

theorem pfuelE_mem : ∀ {e : List (String × Value)} {p}, p ∈ e → pfuelV p.2 ≤ pfuelE e
  | [], _, hp => absurd hp (List.not_mem_nil _)
  | (k, v) :: rest, p, hp => by
    rw [pfuelE]
    rcases List.mem_cons.mp hp with rfl | hp2
    · dsimp only
      omega
    · have := pfuelE_mem hp2
      omega

/-- Member-wise induction over values (the nested inductive needs a custom
principle). -/
theorem value_ind (motive : Value → Prop)
    (hnull : motive .null) (hbool : ∀ b, motive (.bool b)) (hnum : ∀ j, motive (.num j))
    (hstr : ∀ s, motive (.str s))
    (harr : ∀ xs, (∀ x ∈ xs, motive x) → motive (.arr xs))
    (hobj : ∀ e, (∀ p ∈ e, motive p.2) → motive (.obj e)) : ∀ v, motive v
  | .null => hnull
  | .bool b => hbool b
  | .num j => hnum j
  | .str s => hstr s
  | .arr xs =>
    harr xs (fun x hx =>
      have : sizeOf x < 1 + sizeOf xs := by
        have h1 := List.sizeOf_lt_of_mem hx
        omega
      value_ind motive hnull hbool hnum hstr harr hobj x)
  | .obj e =>
    hobj e (fun p hp =>
      have : sizeOf p.2 < 1 + sizeOf e := by
        have h1 := List.sizeOf_lt_of_mem hp
        have h2 : sizeOf p.2 < sizeOf p := by
          rcases p with ⟨k, v⟩
          simp
        omega
      value_ind motive hnull hbool hnum hstr harr hobj p.2)
termination_by v => sizeOf v

theorem hexVal_hexDigit : ∀ n : Nat, n < 16 → hexVal (hexDigitChar n) = n := by decide

theorem hexVal_zero : hexVal '0' = 0 := by decide

theorem escapeChar_length_pos (c : Char) : 1 ≤ (escapeChar c).length := by
  unfold escapeChar
  split_ifs <;> simp

theorem length_le_flatMap_escape : ∀ s : List Char, s.length ≤ (s.flatMap escapeChar).length
  | [] => Nat.le_refl 0
  | c :: s => by
    rw [List.flatMap_cons, List.length_append, List.length_cons]
    have h1 := escapeChar_length_pos c
    have h2 := length_le_flatMap_escape s
    omega

theorem pStrChars_escape : ∀ (s rest : List Char) (f : Nat), s.length < f →
    pStrChars f (s.flatMap escapeChar ++ '"' :: rest) = some (s, rest)
  | [], rest, f, hf => by
    match f, hf with
    | f + 1, _ =>
      rw [List.flatMap_nil, List.nil_append]
      rfl
  | c :: s, rest, f, hf => by
    match f, hf with
    | f + 1, hf =>
      rw [List.flatMap_cons, List.append_assoc]
      simp only [List.length_cons] at hf
      have ih := pStrChars_escape s rest f (by omega)
      by_cases h1 : c = '"'
      · subst h1
        show pStrChars (f + 1) ('\\' :: '"' :: (s.flatMap escapeChar ++ '"' :: rest)) =
          some ('"' :: s, rest)
        simp +decide [pStrChars, unescapeChar, ih]
      · by_cases h2 : c = '\\'
        · subst h2
          show pStrChars (f + 1) ('\\' :: '\\' :: (s.flatMap escapeChar ++ '"' :: rest)) =
            some ('\\' :: s, rest)
          simp +decide [pStrChars, unescapeChar, ih]
        · by_cases h3 : c = '\x08'
          · subst h3
            show pStrChars (f + 1) ('\\' :: 'b' :: (s.flatMap escapeChar ++ '"' :: rest)) =
              some ('\x08' :: s, rest)
            simp +decide [pStrChars, unescapeChar, ih]
          · by_cases h4 : c = '\t'
            · subst h4
              show pStrChars (f + 1) ('\\' :: 't' :: (s.flatMap escapeChar ++ '"' :: rest)) =
                some ('\t' :: s, rest)
              simp +decide [pStrChars, unescapeChar, ih]
            · by_cases h5 : c = '\n'
              · subst h5
                show pStrChars (f + 1) ('\\' :: 'n' :: (s.flatMap escapeChar ++ '"' :: rest)) =
                  some ('\n' :: s, rest)
                simp +decide [pStrChars, unescapeChar, ih]
              · by_cases h6 : c = '\x0c'
                · subst h6
                  show pStrChars (f + 1) ('\\' :: 'f' :: (s.flatMap escapeChar ++ '"' :: rest)) =
                    some ('\x0c' :: s, rest)
                  simp +decide [pStrChars, unescapeChar, ih]
                · by_cases h7 : c = '\r'
                  · subst h7
                    show pStrChars (f + 1) ('\\' :: 'r' :: (s.flatMap escapeChar ++ '"' :: rest)) =
                      some ('\r' :: s, rest)
                    simp +decide [pStrChars, unescapeChar, ih]
                  · by_cases h8 : c.toNat < 0x20
                    · have hesc : escapeChar c = '\\' :: 'u' :: '0' :: '0' ::
                          hexDigitChar (c.toNat / 16) :: [hexDigitChar (c.toNat % 16)] := by
                        unfold escapeChar
                        rw [if_neg h1, if_neg h2, if_neg h3, if_neg h4, if_neg h5, if_neg h6,
                          if_neg h7, if_pos h8]
                      rw [hesc]
                      show pStrChars (f + 1) ('\\' :: 'u' :: '0' :: '0' ::
                          hexDigitChar (c.toNat / 16) :: hexDigitChar (c.toNat % 16) ::
                          (s.flatMap escapeChar ++ '"' :: rest)) =
                        some (c :: s, rest)
                      have hchar : 4096 * hexVal '0' + 256 * hexVal '0' +
                          16 * hexVal (hexDigitChar (c.toNat / 16)) +
                          hexVal (hexDigitChar (c.toNat % 16)) = c.toNat := by
                        rw [hexVal_hexDigit _ (by omega), hexVal_hexDigit _ (by omega),
                          hexVal_zero]
                        omega
                      simp +decide [pStrChars, ih, hchar, Char.ofNat_toNat]
                    · have hesc : escapeChar c = [c] := by
                        unfold escapeChar
                        rw [if_neg h1, if_neg h2, if_neg h3, if_neg h4, if_neg h5, if_neg h6,
                          if_neg h7, if_neg h8]
                      rw [hesc]
                      show pStrChars (f + 1) (c :: (s.flatMap escapeChar ++ '"' :: rest)) =
                        some (c :: s, rest)
                      rw [pStrChars.eq_def]
                      dsimp only
                      rw [if_neg h1, if_neg h2, ih]

theorem isDigitChar_decDigit : ∀ m : Nat, m < 10 → isDigitChar (decDigitChar m) = true := by
  decide

theorem dval_decDigit : ∀ m : Nat, m < 10 → dval (decDigitChar m) = m := by decide

theorem natChars_ne_nil (n : Nat) : natChars n ≠ [] := by
  rw [natChars_eq]
  by_cases h : n < 10 <;> simp [h]

theorem natChars_digits (n : Nat) : ∀ c ∈ natChars n, isDigitChar c = true := by
  induction n using Nat.strong_induction_on with
  | _ n ih =>
    rw [natChars_eq]
    by_cases h : n < 10
    · rw [if_pos h]
      intro c hc
      rcases List.mem_cons.mp hc with rfl | hc2
      · exact isDigitChar_decDigit n h
      · exact absurd hc2 (List.not_mem_nil c)
    · rw [if_neg h]
      intro c hc
      rcases List.mem_append.mp hc with hc1 | hc1
      · exact ih (n / 10) (Nat.div_lt_self (by omega) (by omega)) c hc1
      · rcases List.mem_cons.mp hc1 with rfl | hc2
        · exact isDigitChar_decDigit _ (Nat.mod_lt _ (by omega))
        · exact absurd hc2 (List.not_mem_nil c)

theorem pDigits_append :
    ∀ (ds : List Char) (acc : Nat) (rest : List Char),
      (∀ c ∈ ds, isDigitChar c = true) → noDigitStart rest →
      pDigits (ds ++ rest) acc = (List.foldl (fun a c => a * 10 + dval c) acc ds, rest)
  | [], acc, rest, _, hr => by
    cases rest with
    | nil => rfl
    | cons c r =>
      show pDigits (c :: r) acc = (acc, c :: r)
      rw [pDigits, if_neg]
      rw [hr c rfl]
      simp
  | d :: ds, acc, rest, hds, hr => by
    show pDigits (d :: (ds ++ rest)) acc = _
    rw [pDigits, if_pos (hds d (List.mem_cons_self d ds)),
      pDigits_append ds _ rest (fun c hc => hds c (List.mem_cons_of_mem d hc)) hr,
      List.foldl_cons]

theorem foldl_digits_natChars (n : Nat) :
    ∀ acc : Nat,
      List.foldl (fun a c => a * 10 + dval c) acc (natChars n) =
        acc * 10 ^ (natChars n).length + n := by
  induction n using Nat.strong_induction_on with
  | _ n ih =>
    intro acc
    rw [natChars_eq]
    by_cases h : n < 10
    · rw [if_pos h]
      simp [dval_decDigit n h]
    · rw [if_neg h]
      rw [List.foldl_append, ih (n / 10) (Nat.div_lt_self (by omega) (by omega)) acc,
        List.foldl_cons, List.foldl_nil, List.length_append, List.length_cons,
        List.length_nil, dval_decDigit _ (Nat.mod_lt _ (by omega)), pow_succ]
      ring_nf
      omega

/-- The digit-run parser reconstructs a natural number from its canonical
decimal form. -/
theorem pDigits_natChars (n : Nat) (rest : List Char) (hr : noDigitStart rest) :
    ∀ c cs, natChars n = c :: cs →
      pDigits (cs ++ rest) (dval c) = (n, rest) := by
  intro c cs hn
  have hd : ∀ x ∈ cs, isDigitChar x = true := fun x hx =>
    natChars_digits n x (hn ▸ List.mem_cons_of_mem c hx)
  rw [pDigits_append cs _ rest hd hr]
  have := foldl_digits_natChars n 0
  rw [hn, List.foldl_cons] at this
  simp only [Nat.zero_mul, Nat.zero_add] at this
  rw [this]

theorem mk_data (s : String) : String.mk s.data = s := by cases s; rfl

theorem noDigitStart_cons {c : Char} (r : List Char) (h : isDigitChar c = false) :
    noDigitStart (c :: r) := by
  intro d hd
  have : c = d := Option.some.inj hd
  rw [← this, h]

theorem noDigitStart_nil : noDigitStart [] := by
  intro d hd
  exact absurd hd (by simp)

theorem digitChar_ne {c : Char} (h : isDigitChar c = true) :
    c ≠ 'n' ∧ c ≠ 't' ∧ c ≠ 'f' ∧ c ≠ '"' ∧ c ≠ '[' ∧ c ≠ '\x7b' ∧ c ≠ '-' ∧
      c ≠ ']' ∧ c ≠ '\x7d' ∧ c ≠ ',' ∧ c ≠ ':' := by
  refine ⟨?_, ?_, ?_, ?_, ?_, ?_, ?_, ?_, ?_, ?_, ?_⟩ <;>
    · intro heq
      subst heq
      revert h
      decide

theorem joinComma_cons₂ (s : String) (l : List String) (h : l ≠ []) :
    joinComma (s :: l) = s ++ "," ++ joinComma l := by
  cases l with
  | nil => exact absurd rfl h
  | cons t r => rfl

theorem canonList_ne_nil (v : Value) (vs : List Value) : canonList (v :: vs) ≠ [] := by
  rw [canonList]
  simp

theorem pVal_succ (f : Nat) (cs : List Char) :
    pVal (f + 1) cs = pValAux (pElems f) (pFields f) cs := rfl

theorem pElems_succ (f : Nat) (cs : List Char) :
    pElems (f + 1) cs = pElemsAux (pVal f) (pElems f) cs := rfl

theorem pFields_succ (f : Nat) (cs : List Char) :
    pFields (f + 1) cs = pFieldsAux (pVal f) (pFields f) cs := rfl

theorem pVal_null_go (f : Nat) (rest : List Char) :
    pVal (f + 1) ('n' :: 'u' :: 'l' :: 'l' :: rest) = some (.null, rest) := rfl

theorem pVal_true_go (f : Nat) (rest : List Char) :
    pVal (f + 1) ('t' :: 'r' :: 'u' :: 'e' :: rest) = some (.bool true, rest) := rfl

theorem pVal_false_go (f : Nat) (rest : List Char) :
    pVal (f + 1) ('f' :: 'a' :: 'l' :: 's' :: 'e' :: rest) = some (.bool false, rest) := rfl

theorem pVal_str_go (f : Nat) (cs : List Char) :
    pVal (f + 1) ('"' :: cs) =
      match pStrChars cs.length cs with
      | some (scs, r) => some (.str (String.mk scs), r)
      | none => none := rfl

theorem pVal_arr_nil_go (f : Nat) (rest : List Char) :
    pVal (f + 1) ('[' :: ']' :: rest) = some (.arr [], rest) := rfl

theorem pVal_obj_nil_go (f : Nat) (rest : List Char) :
    pVal (f + 1) ('\x7b' :: '\x7d' :: rest) = some (.obj [], rest) := rfl

theorem pValAux_arr (pe : List Char → Option (List Value × List Char))
    (pf : List Char → Option (List (String × Value) × List Char))
    (c : Char) (cs : List Char) (hc : c ≠ ']') :
    pValAux pe pf ('[' :: c :: cs) =
      match pe (c :: cs) with
      | some (vs, r) => some (.arr vs, r)
      | none => none := by
  simp only [pValAux]
  rw [if_pos trivial, if_neg hc]
  rfl

theorem pValAux_obj (pe : List Char → Option (List Value × List Char))
    (pf : List Char → Option (List (String × Value) × List Char))
    (c : Char) (cs : List Char) (hc : c ≠ '\x7d') :
    pValAux pe pf ('\x7b' :: c :: cs) =
      match pf (c :: cs) with
      | some (fs, r) => some (.obj fs, r)
      | none => none := by
  simp only [pValAux]
  rw [if_pos trivial, if_neg hc]
  rfl

theorem pValAux_neg (pe : List Char → Option (List Value × List Char))
    (pf : List Char → Option (List (String × Value) × List Char))
    (d : Char) (r : List Char) (hd : isDigitChar d = true) :
    pValAux pe pf ('-' :: d :: r) =
      match pDigits r (dval d) with
      | (m, r2) => some (.num (.int (-(m : Int))), r2) := by
  simp only [pValAux]
  rw [if_pos trivial, if_pos hd]
  rfl

theorem pValAux_digit (pe : List Char → Option (List Value × List Char))
    (pf : List Char → Option (List (String × Value) × List Char))
    (c : Char) (cs : List Char) (h : isDigitChar c = true) :
    pValAux pe pf (c :: cs) =
      match pDigits cs (dval c) with
      | (m, r2) => some (.num (.int (m : Int)), r2) := by
  obtain ⟨hn, ht, hf, hq, hlb, hlc, hm, _, _, _, _⟩ := digitChar_ne h
  simp only [pValAux]
  rw [if_neg hn, if_neg ht, if_neg hf, if_neg hq, if_neg hlb, if_neg hlc, if_neg hm,
    if_pos h]

theorem pVal_arr_go (f : Nat) (c : Char) (cs : List Char) (hc : c ≠ ']') :
    pVal (f + 1) ('[' :: c :: cs) =
      match pElems f (c :: cs) with
      | some (vs, r) => some (.arr vs, r)
      | none => none := by
  rw [pVal_succ]
  exact pValAux_arr _ _ c cs hc

theorem pVal_obj_go (f : Nat) (c : Char) (cs : List Char) (hc : c ≠ '\x7d') :
    pVal (f + 1) ('\x7b' :: c :: cs) =
      match pFields f (c :: cs) with
      | some (fs, r) => some (.obj fs, r)
      | none => none := by
  rw [pVal_succ]
  exact pValAux_obj _ _ c cs hc

theorem pVal_neg_go (f : Nat) (d : Char) (r : List Char) (hd : isDigitChar d = true) :
    pVal (f + 1) ('-' :: d :: r) =
      match pDigits r (dval d) with
      | (m, r2) => some (.num (.int (-(m : Int))), r2) := by
  rw [pVal_succ]
  exact pValAux_neg _ _ d r hd

theorem pVal_digit_go (f : Nat) (c : Char) (cs : List Char) (h : isDigitChar c = true) :
    pVal (f + 1) (c :: cs) =
      match pDigits cs (dval c) with
      | (m, r2) => some (.num (.int (m : Int)), r2) := by
  rw [pVal_succ]
  exact pValAux_digit _ _ c cs h

theorem joinComma_single (s : String) : joinComma [s] = s := rfl

theorem joinComma_data_head (s : String) (l : List String) :
    ∃ tail, (joinComma (s :: l)).data = s.data ++ tail := by
  cases l with
  | nil =>
    refine ⟨[], ?_⟩
    rw [joinComma_single, List.append_nil]
  | cons t r =>
    refine ⟨',' :: (joinComma (t :: r)).data, ?_⟩
    rw [joinComma_cons₂ s (t :: r) (by simp), String.data_append, String.data_append,
      List.append_assoc]
    rfl

theorem natChars_head_digit (n : Nat) : ∃ c cs, natChars n = c :: cs ∧ isDigitChar c = true := by
  rcases hnc : natChars n with _ | ⟨c, cs⟩
  · exact absurd hnc (natChars_ne_nil n)
  · refine ⟨c, cs, rfl, ?_⟩
    exact natChars_digits n c (by rw [hnc]; exact List.mem_cons_self c cs)

/-- The canonical form of a supported value is nonempty and never starts
with a closing bracket, closing brace or comma. -/
theorem canon_head (v : Value) (hw : wfV v = true) :
    ∃ c cs, (canonicalize v).data = c :: cs ∧ c ≠ ']' ∧ c ≠ '\x7d' ∧ c ≠ ',' := by
  cases v with
  | null => exact ⟨'n', ['u', 'l', 'l'], rfl, by decide, by decide, by decide⟩
  | bool b =>
    cases b with
    | true => exact ⟨'t', ['r', 'u', 'e'], rfl, by decide, by decide, by decide⟩
    | false => exact ⟨'f', ['a', 'l', 's', 'e'], rfl, by decide, by decide, by decide⟩
  | num j =>
    cases j with
    | int i =>
      cases i with
      | ofNat n =>
        obtain ⟨c, cs, hc, hd⟩ := natChars_head_digit n
        obtain ⟨_, _, _, _, _, _, _, h1, h2, h3, _⟩ := digitChar_ne hd
        exact ⟨c, cs, hc, h1, h2, h3⟩
      | negSucc m =>
        exact ⟨'-', natChars (m + 1), rfl, by decide, by decide, by decide⟩
    | nan => exact absurd hw (by decide)
    | posInf => exact absurd hw (by decide)
    | negInf => exact absurd hw (by decide)
  | str s =>
    exact ⟨'"', s.data.flatMap escapeChar ++ ['"'], rfl, by decide, by decide, by decide⟩
  | arr xs =>
    refine ⟨'[', (joinComma (canonList xs)).data ++ [']'], ?_, by decide, by decide, by decide⟩
    show (("[" ++ joinComma (canonList xs) ++ "]")).data = _
    rw [String.data_append, String.data_append, List.append_assoc]
    rfl
  | obj e =>
    refine ⟨'\x7b',
      (joinComma ((sortEntries (canonEntries e)).map
        (fun p => jsonQuote p.1 ++ ":" ++ p.2))).data ++ ['\x7d'], ?_, by decide, by decide,
      by decide⟩
    show (("\x7b" ++ joinComma ((sortEntries (canonEntries e)).map
      (fun p => jsonQuote p.1 ++ ":" ++ p.2)) ++ "\x7d")).data = _
    rw [String.data_append, String.data_append, List.append_assoc]
    rfl

theorem pElems_run :
    ∀ (xs : List Value) (f : Nat) (rest : List Char),
      (∀ x ∈ xs, ∀ f2 r2, pfuelV x ≤ f2 → noDigitStart r2 →
        pVal f2 ((canonicalize x).data ++ r2) = some (normV x, r2)) →
      (∀ x ∈ xs, pfuelV x + xs.length ≤ f) →
      xs ≠ [] →
      pElems f ((joinComma (canonList xs)).data ++ ']' :: rest) = some (normL xs, rest)
  | [], _, _, _, _, hne => absurd rfl hne
  | [v], f, rest, hih, hfu, _ => by
    have h1 : pfuelV v + 1 ≤ f := by
      have := hfu v (by simp)
      simpa using this
    cases f with
    | zero => exact absurd h1 (by omega)
    | succ fp =>
      rw [pElems_succ]
      have hjoin : joinComma (canonList [v]) = canonicalize v := by
        rw [canonList, canonList, joinComma_single]
      rw [hjoin]
      unfold pElemsAux
      rw [hih v (by simp) fp (']' :: rest) (by omega) (noDigitStart_cons _ (by decide))]
      dsimp only
      rw [if_neg (by decide), if_pos rfl]
      rfl
  | v :: v2 :: vs, f, rest, hih, hfu, _ => by
    have h1 : pfuelV v + (vs.length + 2) ≤ f := by
      have := hfu v (by simp)
      simp only [List.length_cons] at this
      omega
    cases f with
    | zero => exact absurd h1 (by omega)
    | succ fp =>
      rw [pElems_succ]
      have hjoin : joinComma (canonList (v :: v2 :: vs)) =
          canonicalize v ++ "," ++ joinComma (canonList (v2 :: vs)) := by
        rw [canonList]
        exact joinComma_cons₂ _ _ (canonList_ne_nil v2 vs)
      rw [hjoin, String.data_append, String.data_append, List.append_assoc,
        List.append_assoc]
      unfold pElemsAux
      rw [show ((",".data : List Char) ++
            ((joinComma (canonList (v2 :: vs))).data ++ ']' :: rest)) =
          ',' :: ((joinComma (canonList (v2 :: vs))).data ++ ']' :: rest) from rfl]
      rw [hih v (by simp) fp
        (',' :: ((joinComma (canonList (v2 :: vs))).data ++ ']' :: rest))
        (by omega) (noDigitStart_cons _ (by decide))]
      dsimp only
      rw [if_pos rfl]
      rw [pElems_run (v2 :: vs) fp rest (fun x hx => hih x (by simp [hx]))
        (fun x hx => by
          have := hfu x (by simp [hx])
          simp only [List.length_cons] at this ⊢
          omega)
        (by simp)]
      rfl

theorem emit_data (k : String) (v : Value) (tail : List Char) :
    ((jsonQuote k ++ ":" ++ canonicalize v)).data ++ tail =
      '"' :: (k.data.flatMap escapeChar ++ '"' :: ':' :: ((canonicalize v).data ++ tail)) := by
  rw [String.data_append, String.data_append,
    show (jsonQuote k).data = '"' :: (k.data.flatMap escapeChar ++ ['"']) from rfl,
    show ((":" : String).data : List Char) = [':'] from rfl]
  simp [List.append_assoc]

theorem pFields_run :
    ∀ (q : List (String × Value)) (f : Nat) (rest : List Char),
      (∀ p ∈ q, ∀ f2 r2, pfuelV p.2 ≤ f2 → noDigitStart r2 →
        pVal f2 ((canonicalize p.2).data ++ r2) = some (normV p.2, r2)) →
      (∀ p ∈ q, pfuelV p.2 + q.length ≤ f) →
      q ≠ [] →
      pFields f ((joinComma (q.map (fun p => jsonQuote p.1 ++ ":" ++ canonicalize p.2))).data
          ++ '\x7d' :: rest) = some (q.map (fun p => (p.1, normV p.2)), rest)
  | [], _, _, _, _, hne => absurd rfl hne
  | [(k, v)], f, rest, hih, hfu, _ => by
    have h1 : pfuelV v + 1 ≤ f := by
      have := hfu (k, v) (by simp)
      simpa using this
    cases f with
    | zero => exact absurd h1 (by omega)
    | succ fp =>
      rw [pFields_succ, List.map_cons, List.map_nil, joinComma_single]
      dsimp only
      rw [emit_data k v ('\x7d' :: rest)]
      have hlen : k.data.length <
          (k.data.flatMap escapeChar ++
            '"' :: ':' :: ((canonicalize v).data ++ '\x7d' :: rest)).length := by
        rw [List.length_append, List.length_cons]
        have := length_le_flatMap_escape k.data
        omega
      unfold pFieldsAux
      dsimp only
      rw [if_pos rfl]
      rw [pStrChars_escape k.data (':' :: ((canonicalize v).data ++ '\x7d' :: rest)) _ hlen]
      dsimp only
      rw [if_pos rfl]
      rw [hih (k, v) (by simp) fp ('\x7d' :: rest) (by show pfuelV v ≤ fp; omega)
        (noDigitStart_cons _ (by decide))]
      dsimp only
      rw [if_neg (by decide), if_pos rfl, mk_data]
      rfl
  | (k, v) :: p2 :: q', f, rest, hih, hfu, _ => by
    have h1 : pfuelV v + (q'.length + 2) ≤ f := by
      have := hfu (k, v) (by simp)
      simp only [List.length_cons] at this
      omega
    cases f with
    | zero => exact absurd h1 (by omega)
    | succ fp =>
      rw [pFields_succ, List.map_cons]
      rw [joinComma_cons₂ _ _ (by simp)]
      dsimp only
      rw [String.data_append, String.data_append, List.append_assoc, List.append_assoc]
      rw [show ((("," : String).data : List Char) ++
            ((joinComma ((p2 :: q').map
              (fun p => jsonQuote p.1 ++ ":" ++ canonicalize p.2))).data ++ '\x7d' :: rest)) =
          ',' :: ((joinComma ((p2 :: q').map
            (fun p => jsonQuote p.1 ++ ":" ++ canonicalize p.2))).data ++ '\x7d' :: rest)
          from rfl]
      rw [emit_data k v (',' :: ((joinComma ((p2 :: q').map
        (fun p => jsonQuote p.1 ++ ":" ++ canonicalize p.2))).data ++ '\x7d' :: rest))]
      have hlen : k.data.length <
          (k.data.flatMap escapeChar ++
            '"' :: ':' :: ((canonicalize v).data ++
              ',' :: ((joinComma ((p2 :: q').map
                (fun p => jsonQuote p.1 ++ ":" ++ canonicalize p.2))).data ++
                '\x7d' :: rest))).length := by
        rw [List.length_append, List.length_cons]
        have := length_le_flatMap_escape k.data
        omega
      unfold pFieldsAux
      dsimp only
      rw [if_pos rfl]
      rw [pStrChars_escape k.data _ _ hlen]
      dsimp only
      rw [if_pos rfl]
      rw [hih (k, v) (by simp) fp _ (by show pfuelV v ≤ fp; omega)
        (noDigitStart_cons _ (by decide))]
      dsimp only
      rw [if_pos rfl]
      rw [pFields_run (p2 :: q') fp rest (fun p hp => hih p (by simp [hp]))
        (fun p hp => by
          have := hfu p (by simp [hp])
          simp only [List.length_cons] at this ⊢
          omega)
        (by simp)]
      rw [mk_data]
      rfl

theorem canon_obj_emit (e : List (String × Value)) :
    canonicalize (.obj e) = "\x7b" ++ joinComma ((sortEntries e).map
      (fun p => jsonQuote p.1 ++ ":" ++ canonicalize p.2)) ++ "\x7d" := by
  rw [canonicalize, canonEntries_eq_map,
    sortEntries_map_keyfst (fun p => (p.1, canonicalize p.2)) (fun _ => rfl), List.map_map]
  rfl

/-- Round trip: the parser recovers the key-sorted normal form of a
supported value from its canonical string, leaving any non-digit-led rest
untouched. -/
theorem pVal_canon (v : Value) : wfV v = true → ∀ (fuel : Nat) (rest : List Char),
    pfuelV v ≤ fuel → noDigitStart rest →
    pVal fuel ((canonicalize v).data ++ rest) = some (normV v, rest) := by
  induction v using value_ind with
  | hnull =>
    intro _ fuel rest hf _
    cases fuel with
    | zero => simp only [pfuelV] at hf; omega
    | succ fp => exact pVal_null_go fp rest
  | hbool b =>
    intro _ fuel rest hf _
    cases fuel with
    | zero => simp only [pfuelV] at hf; omega
    | succ fp =>
      cases b with
      | true => exact pVal_true_go fp rest
      | false => exact pVal_false_go fp rest
  | hnum j =>
    intro hw fuel rest hf hr
    cases j with
    | int i =>
      cases fuel with
      | zero => simp only [pfuelV] at hf; omega
      | succ fp =>
        cases i with
        | ofNat n =>
          obtain ⟨c, cs, hc, hd⟩ := natChars_head_digit n
          rw [show (canonicalize (Value.num (JNum.int (Int.ofNat n)))).data = natChars n
            from rfl, hc, List.cons_append, pVal_digit_go fp c (cs ++ rest) hd,
            pDigits_natChars n rest hr c cs hc]
          rfl
        | negSucc m =>
          obtain ⟨c, cs, hc, hd⟩ := natChars_head_digit (m + 1)
          rw [show (canonicalize (Value.num (JNum.int (Int.negSucc m)))).data =
              '-' :: natChars (m + 1) from rfl, hc, List.cons_append, List.cons_append,
            pVal_neg_go fp c (cs ++ rest) hd,
            pDigits_natChars (m + 1) rest hr c cs hc]
          rfl
    | nan => exact absurd hw (by decide)
    | posInf => exact absurd hw (by decide)
    | negInf => exact absurd hw (by decide)
  | hstr s =>
    intro _ fuel rest hf _
    cases fuel with
    | zero => simp only [pfuelV] at hf; omega
    | succ fp =>
      rw [show (canonicalize (Value.str s)).data =
          '"' :: (s.data.flatMap escapeChar ++ ['"']) from rfl, List.cons_append,
        List.append_assoc, List.singleton_append]
      have hlen : s.data.length < (s.data.flatMap escapeChar ++ '"' :: rest).length := by
        rw [List.length_append, List.length_cons]
        have := length_le_flatMap_escape s.data
        omega
      rw [pVal_str_go, pStrChars_escape s.data rest _ hlen]
      rfl
  | harr xs ih =>
    intro hw fuel rest hf hr
    cases xs with
    | nil =>
      cases fuel with
      | zero => simp only [pfuelV, pfuelL] at hf; omega
      | succ fp => exact pVal_arr_nil_go fp rest
    | cons x xs' =>
      cases fuel with
      | zero => simp only [pfuelV] at hf; omega
      | succ fp =>
        have hwl : wfL (x :: xs') = true := hw
        obtain ⟨c, cs, hc, hc1, _, _⟩ := canon_head x (wfL_mem hwl (List.mem_cons_self x xs'))
        obtain ⟨tail, htail⟩ := joinComma_data_head (canonicalize x) (canonList xs')
        have hdata : (canonicalize (Value.arr (x :: xs'))).data ++ rest =
            '[' :: ((joinComma (canonList (x :: xs'))).data ++ ']' :: rest) := by
          show ('[' :: ((joinComma (canonList (x :: xs'))).data ++ [']'])) ++ rest = _
          rw [List.cons_append, List.append_assoc, List.singleton_append]
        have hJ : (joinComma (canonList (x :: xs'))).data ++ ']' :: rest =
            c :: ((cs ++ tail) ++ ']' :: rest) := by
          rw [show canonList (x :: xs') = canonicalize x :: canonList xs' from rfl,
            htail, hc]
          rfl
        rw [hdata, hJ, pVal_arr_go fp c _ hc1, ← hJ]
        have hihs : ∀ y ∈ x :: xs', ∀ f2 r2, pfuelV y ≤ f2 → noDigitStart r2 →
            pVal f2 ((canonicalize y).data ++ r2) = some (normV y, r2) :=
          fun y hy f2 r2 hf2 hr2 => ih y hy (wfL_mem hwl hy) f2 r2 hf2 hr2
        have hfus : ∀ y ∈ x :: xs', pfuelV y + (x :: xs').length ≤ fp := by
          intro y hy
          have h2 := pfuelL_mem hy
          simp only [pfuelV] at hf
          simp only [List.length_cons] at hf h2 ⊢
          omega
        rw [pElems_run (x :: xs') fp rest hihs hfus (by simp)]
        rfl
  | hobj e ih =>
    intro hw fuel rest hf hr
    have hw2 : (decide (((e.map Prod.fst)).Nodup) && wfE e) = true := hw
    rw [Bool.and_eq_true] at hw2
    have hwe := hw2.2
    cases e with
    | nil =>
      cases fuel with
      | zero => simp only [pfuelV, pfuelE] at hf; omega
      | succ fp => exact pVal_obj_nil_go fp rest
    | cons p e' =>
      cases fuel with
      | zero => simp only [pfuelV] at hf; omega
      | succ fp =>
        rcases hq : sortEntries (p :: e') with _ | ⟨p0, q'⟩
        · have h0 : (sortEntries (p :: e')).length = (p :: e').length :=
            (List.perm_insertionSort keyLE (p :: e')).length_eq
          rw [hq] at h0
          simp at h0
        · have hdata0 : (canonicalize (Value.obj (p :: e'))).data ++ rest =
              '\x7b' :: ((joinComma ((sortEntries (p :: e')).map
                (fun r => jsonQuote r.1 ++ ":" ++ canonicalize r.2))).data ++
                '\x7d' :: rest) := by
            rw [canon_obj_emit (p :: e')]
            show ('\x7b' :: ((joinComma ((sortEntries (p :: e')).map
              (fun r => jsonQuote r.1 ++ ":" ++ canonicalize r.2))).data ++ ['\x7d'])) ++
              rest = _
            rw [List.cons_append, List.append_assoc, List.singleton_append]
          obtain ⟨tail, htail⟩ := joinComma_data_head
            (jsonQuote p0.1 ++ ":" ++ canonicalize p0.2)
            (q'.map (fun r => jsonQuote r.1 ++ ":" ++ canonicalize r.2))
          have hJ : (joinComma ((p0 :: q').map
              (fun r => jsonQuote r.1 ++ ":" ++ canonicalize r.2))).data ++
              '\x7d' :: rest =
              '"' :: (p0.1.data.flatMap escapeChar ++ '"' :: ':' ::
                ((canonicalize p0.2).data ++ (tail ++ '\x7d' :: rest))) := by
            rw [List.map_cons]
            rw [htail, List.append_assoc]
            exact emit_data p0.1 p0.2 (tail ++ '\x7d' :: rest)
          rw [hdata0, hq, hJ, pVal_obj_go fp '"' _ (by decide), ← hJ]
          have hihs : ∀ r ∈ p0 :: q', ∀ f2 r2, pfuelV r.2 ≤ f2 → noDigitStart r2 →
              pVal f2 ((canonicalize r.2).data ++ r2) = some (normV r.2, r2) := by
            intro r hrq f2 r2 hf2 hr2
            have hre : r ∈ p :: e' := by
              rw [← hq] at hrq
              exact (List.perm_insertionSort keyLE (p :: e')).mem_iff.mp hrq
            exact ih r hre (wfE_mem hwe hre) f2 r2 hf2 hr2
          have hfus : ∀ r ∈ p0 :: q', pfuelV r.2 + (p0 :: q').length ≤ fp := by
            intro r hrq
            have hre : r ∈ p :: e' := by
              rw [← hq] at hrq
              exact (List.perm_insertionSort keyLE (p :: e')).mem_iff.mp hrq
            have h2 := pfuelE_mem hre
            have hlq : (p0 :: q').length = (p :: e').length := by
              rw [← hq]
              exact (List.perm_insertionSort keyLE (p :: e')).length_eq
            simp only [pfuelV] at hf
            rw [hlq]
            simp only [List.length_cons] at hf h2 ⊢
            omega
          rw [pFields_run (p0 :: q') fp rest hihs hfus (by simp)]
          have hnorm : (p0 :: q').map (fun r : String × Value => (r.1, normV r.2)) =
              sortEntries (normE (p :: e')) := by
            rw [← hq, ← sortEntries_map_keyfst (fun r => (r.1, normV r.2)) (fun _ => rfl),
              ← normE_eq_map]
          rw [hnorm]
          rfl

theorem canon_norm (v : Value) : canonicalize (normV v) = canonicalize v := by
  induction v using value_ind with
  | hnull => rfl
  | hbool b => rfl
  | hnum j => rfl
  | hstr s => rfl
  | harr xs ih =>
    rw [normV, canonicalize, canonicalize]
    have hlist : canonList (normL xs) = canonList xs := by
      rw [canonList_eq_map, canonList_eq_map, normL_eq_map, List.map_map]
      apply List.map_congr_left
      intro x hx
      simp only [Function.comp_apply]
      exact ih x hx
    rw [hlist]
  | hobj e ih =>
    rw [normV, canon_obj_emit, canon_obj_emit]
    have hsorted : List.Sorted (fun a b => keyLE a b) (sortEntries (normE e)) :=
      List.sorted_insertionSort keyLE (normE e)
    have hid : sortEntries (sortEntries (normE e)) = sortEntries (normE e) :=
      List.Sorted.insertionSort_eq hsorted
    rw [hid, normE_eq_map,
      sortEntries_map_keyfst (fun r => (r.1, normV r.2)) (fun _ => rfl), List.map_map]
    have hcongr : ((sortEntries e).map ((fun r => jsonQuote r.1 ++ ":" ++ canonicalize r.2) ∘
        (fun r : String × Value => (r.1, normV r.2)))) =
        (sortEntries e).map (fun r => jsonQuote r.1 ++ ":" ++ canonicalize r.2) := by
      apply List.map_congr_left
      intro r hrq
      have hre : r ∈ e := (List.perm_insertionSort keyLE e).mem_iff.mp hrq
      simp only [Function.comp_apply]
      rw [ih r hre]
    rw [hcongr]

/-- C2: For every pair of supported values v1 and v2, canonicalize v1 equals
canonicalize v2 if and only if v1 and v2 are structurally/semantically equal
— equal up to mapping-key insertion order, i.e. their key-sorted normal
forms coincide.  In particular semantically distinct supported values always
produce distinct canonical strings. -/
theorem canonical_iff_semantic (v1 v2 : Value) (h1 : wfV v1 = true) (h2 : wfV v2 = true) :
    canonicalize v1 = canonicalize v2 ↔ normV v1 = normV v2 := by
  constructor
  · intro hcan
    have hp1 := pVal_canon v1 h1 (max (pfuelV v1) (pfuelV v2)) []
      (le_max_left _ _) noDigitStart_nil
    have hp2 := pVal_canon v2 h2 (max (pfuelV v1) (pfuelV v2)) []
      (le_max_right _ _) noDigitStart_nil
    rw [hcan, hp2] at hp1
    injection hp1 with h3
    injection h3 with h4 h5
    exact h4.symm
  · intro hnorm
    rw [← canon_norm v1, ← canon_norm v2, hnorm]

theorem canonical_iff_semantic_witness :
    wfV (Value.obj [("a", .num (.int 1)), ("b", .num (.int 2))]) = true ∧
    wfV (Value.obj [("b", .num (.int 2)), ("a", .num (.int 1))]) = true ∧
    (canonicalize (Value.obj [("a", .num (.int 1)), ("b", .num (.int 2))]) =
        canonicalize (Value.obj [("b", .num (.int 2)), ("a", .num (.int 1))]) ↔
      normV (Value.obj [("a", .num (.int 1)), ("b", .num (.int 2))]) =
        normV (Value.obj [("b", .num (.int 2)), ("a", .num (.int 1))])) :=
  ⟨by decide, by decide, canonical_iff_semantic _ _ (by decide) (by decide)⟩
